import Mathlib

/-!
# vadimscanner: the ignore filter, the best-server selector and the scan engine of main.go

A shallow embedding of `src/main.go`.

Conventions of the embedding
* Go strings are Lean strings; `strings.Contains` and `strings.Split` are modelled on the
  character lists after the Go library documentation.
* Go `int` is taken as 64 bits wide (the usual build targets), `int64` and `time.Duration` are
  64 bits wide; conversions and the multiplication of durations wrap around, `time.Since`
  saturates, as the Go library documents.
* `os.ReadFile` and `CheckPing` are oracles: the file system is a function from a path to the
  content (or `none` when the read fails), a latency query is a function of the position of the
  query and of the queried record.
* `[]*ScanResponse` is a list of addresses into a heap of records.
* The goroutines of the scan engine are interleaved at the granularity of the statements of
  the loop body; every read of shared memory is atomic in the model, and an exit
  (`wg.Done()`, `cancel()`, `return`) is one step. A `select` whose cases are both ready takes
  either of them, as the Go language specifies.
-/

namespace VadimScanner

/-! ## Strings and maps of the Go library -/

/-- The model of `strings.HasPrefix` on character lists. -/
def hasPrefix : List Char → List Char → Bool
  | _, [] => true
  | [], _ :: _ => false
  | a :: s, b :: p => a == b && hasPrefix s p

/-- The model of `strings.Contains` on character lists: some suffix of `s` starts with `c`. -/
def containsChars : List Char → List Char → Bool
  | [], c => hasPrefix [] c
  | a :: s, c => hasPrefix (a :: s) c || containsChars s c

/-- The model of `strings.Contains(s, substr)`. -/
def stringsContains (s substr : String) : Bool :=
  containsChars s.data substr.data

/-- The line feed, the separator of `strings.Split(string(data), "\n")`. -/
def newline : Char := Char.ofNat 10

/-- The pieces of a character list between the occurrences of `sep`: one piece more than there
are separators, as `strings.Split` returns them for a separator of one character. -/
def splitOnChar (sep : Char) : List Char → List (List Char)
  | [] => [[]]
  | c :: cs =>
    match splitOnChar sep cs with
    | [] => [[]]
    | w :: ws => if c = sep then [] :: w :: ws else (c :: w) :: ws

/-- The model of `strings.Split(s, "\n")`. -/
def stringsSplit (s : String) : List String :=
  (splitOnChar newline s.data).map String.mk

/-- The inverse of `splitOnChar`: the pieces joined by `sep` (`strings.Join`). -/
def joinWithChar (sep : Char) : List (List Char) → List Char
  | [] => []
  | [w] => w
  | w :: w2 :: ws => w ++ sep :: joinWithChar sep (w2 :: ws)

/-- A Go `map[string]bool`, read with the zero value `false` at a missing key. -/
abbrev GoMap := String → Bool

/-- The literal `map[string]bool{}`. -/
def GoMap.empty : GoMap := fun _ => false

/-- The assignment `m[k] = v`. -/
def GoMap.set (m : GoMap) (k : String) (v : Bool) : GoMap :=
  fun x => if x = k then v else m x

/-! ## The Domain Ignore Filter (main.go, lines 30 to 66) -/

/-- The package-level `builtinIgnoreList`. -/
def builtinIgnoreList : List String :=
  ["cloudflare", "vpn", "shuoki", "ayugram", "akisearch", "digitalocean", "hetzner",
   "hostopia", "aeza"]

/-- The package-level variables that `isIgnored` reads: the flag `ignoreDomains` and the
variable `cache` (`none` is the nil map). -/
structure Globals where
  ignoreDomains : String
  cache : Option GoMap

/-- The file system seen by `os.ReadFile`: the content at a path, `none` when the read fails. -/
abbrev FileSystem := String → Option String

/-- What a call of `isIgnored` leaves behind: the returned value, the package-level `cache`
after the call and the paths given to `os.ReadFile` during the call. -/
structure IgnoredCall where
  ret : Bool
  cache : Option GoMap
  reads : List String

/-- The function `isIgnored`. The `cache := map[string]bool{}` of line 61 declares a new local
variable, so the package-level `cache` is handed back as it came in. -/
def isIgnored (g : Globals) (readFile : FileSystem) (s : String) : IgnoredCall :=
  if builtinIgnoreList.any (fun c => stringsContains s c) then
    { ret := false, cache := g.cache, reads := [] }
  else
    match g.cache with
    | some m => { ret := m s, cache := g.cache, reads := [] }
    | none =>
      if g.ignoreDomains.length = 0 then
        { ret := false, cache := g.cache, reads := [] }
      else
        match readFile g.ignoreDomains with
        | none => { ret := false, cache := g.cache, reads := [g.ignoreDomains] }
        | some data =>
          let cache : GoMap := (stringsSplit data).foldl (fun m d => m.set d true) GoMap.empty
          { ret := cache s, cache := g.cache, reads := [g.ignoreDomains] }

/-- Two calls of `isIgnored` one after the other: the second call starts from the
package-level `cache` the first one left, and may see another file system. -/
def isIgnoredTwice (g : Globals) (fs1 fs2 : FileSystem) (s1 s2 : String) :
    IgnoredCall × IgnoredCall :=
  let r1 := isIgnored g fs1 s1
  (r1, isIgnored { g with cache := r1.cache } fs2 s2)

/-! ## Records, the heap and machine integers -/

/-- Modelled from the spec: the struct `ScanResponse` is declared outside `src/`; the fields
are those the data model of the specification lists for a ScanResult. -/
structure ScanResponse where
  IP : String := ""
  Origin : String := ""
  Domain : String := ""
  Issuer : String := ""
  GeoCode : String := ""
  deriving DecidableEq, Repr, Inhabited

/-- A `*ScanResponse`: the address of a record on the heap. -/
abbrev Ptr := Nat

/-- The heap of `ScanResponse` records: the record at address `p` is the `p`-th cell. -/
structure Heap where
  cells : List ScanResponse
  deriving DecidableEq, Repr

/-- The allocation `&ScanResponse{...}`: a new cell past all the allocated ones. -/
def Heap.new (h : Heap) (v : ScanResponse) : Ptr × Heap :=
  (h.cells.length, { cells := h.cells ++ [v] })

/-- The read `*p`. -/
def Heap.load (h : Heap) (p : Ptr) : ScanResponse :=
  h.cells.getD p {}

/-- The write `p.Domain = d`. -/
def Heap.storeDomain (h : Heap) (p : Ptr) (d : String) : Heap :=
  { cells := h.cells.set p { h.load p with Domain := d } }

/-- The conversion of an integer to a signed integer of 64 bits (`int64(x)`, and `int(x)`
where `int` is 64 bits wide): the value modulo `2^64`, in `[-2^63, 2^63)`. -/
def wrapInt64 (x : Int) : Int :=
  (x + 2 ^ 63) % 2 ^ 64 - 2 ^ 63

/-- A line of the log written through `slog`. -/
inductive LogEvent where
  | ignoringDomain (domain : String)
  | failedToCheckPing (server : String)
  | checkedPing (server : String) (ping : Int)
  | bestServerFound (server : String) (ping : Int)
  deriving DecidableEq, Repr

/-! ## The Best-Server Selector (main.go, lines 200 to 229) -/

/-- The external `CheckPing`: the outcome of the `k`-th latency query of the run, made on the
record `ch`; `Except.error` is a non-nil `err`, `Except.ok` carries the `int64` latency. -/
abbrev PingOracle := Nat → Ptr → Except String Int

/-- The variables of the selection loop. -/
structure SelState where
  bestPing : Int
  bestServer : Ptr
  log : List LogEvent
  deriving DecidableEq, Repr

/-- The body of the loop of lines 203 to 214: the `k`-th query of the run, on the record
`ch`. -/
def selectStep (heap : Heap) (CheckPing : PingOracle) (k : Nat) (ch : Ptr) (st : SelState) :
    SelState :=
  match CheckPing k ch with
  | .error _ => { st with log := st.log ++ [.failedToCheckPing (heap.load ch).Domain] }
  | .ok ping =>
    let log := st.log ++ [.checkedPing (heap.load ch).Domain ping]
    if ping ≤ wrapInt64 st.bestPing ∨ st.bestPing = -1 then
      { bestPing := wrapInt64 ping, bestServer := ch, log := log }
    else
      { st with log := log }

/-- The loop `for _, ch := range chs` of lines 203 to 214, from the `k`-th query on. -/
def selectLoop (heap : Heap) (CheckPing : PingOracle) : Nat → List Ptr → SelState → SelState
  | _, [], st => st
  | k, ch :: rest, st => selectLoop heap CheckPing (k + 1) rest (selectStep heap CheckPing k ch st)

/-- What the selector leaves behind. -/
structure SelectorOut where
  /-- The heap after the selector. -/
  heap : Heap
  /-- The address of the fresh record `&ScanResponse{}` of line 202. -/
  fresh : Ptr
  bestServer : Ptr
  bestPing : Int
  /-- The value of `bestServer.Domain` that is logged and written to `bestOut`. -/
  domain : String
  /-- The call `os.WriteFile(bestOut, []byte(bestServer.Domain), 0777)`, when it is made. -/
  written : Option (String × String)
  log : List LogEvent
  deriving DecidableEq, Repr

/-- The block `if best != 0 { ... }` of lines 200 to 229; `none` when the block is skipped. -/
def selector (best : Int) (bestOut : String) (heap : Heap) (chs : List Ptr)
    (CheckPing : PingOracle) : Option SelectorOut :=
  if best ≠ 0 then
    let (fresh, heap0) := heap.new {}
    let st := selectLoop heap0 CheckPing 0 chs { bestPing := -1, bestServer := fresh, log := [] }
    let heap1 := if st.bestPing = -1 then heap0.storeDomain st.bestServer "yahoo.com" else heap0
    let domain := (heap1.load st.bestServer).Domain
    if best ≠ 0 then
      some { heap := heap1, fresh := fresh, bestServer := st.bestServer, bestPing := st.bestPing,
             domain := domain,
             written := if bestOut.length > 0 then some (bestOut, domain) else none,
             log := st.log ++ [.bestServerFound domain st.bestPing] }
    else
      some { heap := heap1, fresh := fresh, bestServer := st.bestServer, bestPing := st.bestPing,
             domain := domain, written := none, log := st.log }
  else
    none

/-- The outcome of the latency query on the `i`-th result of `chs`, the `i`-th query of the
loop: `none` past the end of the list and when the query fails. -/
def queryAt (CheckPing : PingOracle) (chs : List Ptr) (i : Nat) : Option Int :=
  match chs[i]? with
  | none => none
  | some ch =>
    match CheckPing i ch with
    | .error _ => none
    | .ok ping => some ping

/-- Three allocated records, the list `[0, 1, 2]` of their addresses is the result list of
the examples. -/
def exampleHeap : Heap :=
  { cells := [{ Domain := "a.example" }, { Domain := "b.example" }, { Domain := "c.example" }] }

/-- Latency queries that succeed with the latencies 50, 30, 30, ... in the order of evaluation. -/
def examplePings : PingOracle := fun k _ => if k = 0 then .ok 50 else .ok 30

/-- One allocated record, whose own domain is the text of the placeholder. -/
def yahooHeap : Heap := { cells := [{ Domain := "yahoo.com" }] }

/-- Latency queries that all succeed with the latency 10. -/
def steadyPings : PingOracle := fun _ _ => .ok 10

/-- Latency queries that all fail. -/
def failingPings : PingOracle := fun _ _ => .error "timeout"

/-! ## The Concurrent Scan Engine (main.go, lines 148 to 198) -/

/-- Modelled from the spec: the struct `Host` is declared outside `src/`; the fields are those
the data model of the specification lists. -/
structure Host where
  Address : String := ""
  Origin : String := ""
  deriving DecidableEq, Repr, Inhabited

/-- The flags that the engine and the filter read. -/
structure Flags where
  best : Int
  maxWait : Int
  ignoreDomains : String

/-- The constant `time.Second`, in nanoseconds. -/
def second : Int := 1000000000

/-- The saturation of `time.Time.Sub`: a difference outside of the `int64` range is the
largest or the smallest `time.Duration`. -/
def saturateInt64 (x : Int) : Int :=
  if x < -2 ^ 63 then -2 ^ 63 else if 2 ^ 63 - 1 < x then 2 ^ 63 - 1 else x

/-- The call `time.Since(lastChecked)` at the clock reading `now`, both in nanoseconds. -/
def timeSince (now lastChecked : Int) : Int :=
  saturateInt64 (now - lastChecked)

/-- The expression `time.Duration(maxWait) * time.Second`: a product of `int64` values. -/
def maxWaitDuration (maxWait : Int) : Int :=
  wrapInt64 (wrapInt64 maxWait * second)

/-- The way a worker left its loop. -/
inductive Exit where
  | idleTimeout
  | cancelled
  | draining
  | quotaReached
  deriving DecidableEq, Repr

/-- The control point of a worker goroutine, with the local variables that are live there. -/
inductive Pc where
  /-- Line 161, before the idle check. -/
  | loopTop
  /-- Line 166, at the `select`. -/
  | atSelect
  /-- Line 175, inside `ScanTLS(ip, outCh, geo)`. -/
  | scanning (ip : Host)
  /-- Line 182, with `h != nil`, before `mux.Lock()`. -/
  | locking (h : ScanResponse)
  /-- Line 186, after `mux.Unlock()`. -/
  | quotaCheck
  /-- After `wg.Done()` and `return`. -/
  | stopped (why : Exit)
  deriving DecidableEq, Repr

/-- The state that the workers share. The records of `chs` are not written during the scan,
the list of addresses is kept as the list of the records. -/
structure Shared where
  chs : List ScanResponse
  /-- The variable `lastChecked`, a reading of the clock in nanoseconds. -/
  lastChecked : Int
  /-- Whether `cancel()` has been called, which closes `ctx.Done()`. -/
  cancelled : Bool
  /-- The hosts that `hostChan` still delivers; the channel is closed after the last one. -/
  hostChan : List Host
  /-- The number of calls of `wg.Done()`. -/
  done : Nat
  /-- The package-level `cache` of `isIgnored`. -/
  cache : Option GoMap
  log : List LogEvent

/-- What the scheduler and the environment decide at a step of a worker. -/
inductive Action where
  /-- Line 161 runs, the clock reads `now`. -/
  | idleCheck (now : Int)
  /-- The `select` takes `case <-ctx.Done()`. -/
  | ctxDone
  /-- The `select` takes `case ip, ok := <-hostChan`. -/
  | receive
  /-- The call of `ScanTLS` returns `h`. -/
  | scanned (h : Option ScanResponse)
  /-- Lines 182 to 185 run under the mutex, `time.Now()` reads `now`. -/
  | append (now : Int)
  /-- Line 186 runs. -/
  | checkQuota
  deriving Repr

/-- One step of a worker goroutine (lines 160 to 192); `none` when the action is not what the
worker can do at its control point. A `select` with several ready cases takes any of them. -/
def workerStep (cfg : Flags) (fs : FileSystem) (sh : Shared) (pc : Pc) (a : Action) :
    Option (Shared × Pc) :=
  match pc, a with
  | .loopTop, .idleCheck now =>
    if timeSince now sh.lastChecked > maxWaitDuration cfg.maxWait then
      some ({ sh with done := sh.done + 1, cancelled := true }, .stopped .idleTimeout)
    else
      some (sh, .atSelect)
  | .atSelect, .ctxDone =>
    if sh.cancelled then
      some ({ sh with done := sh.done + 1 }, .stopped .cancelled)
    else
      none
  | .atSelect, .receive =>
    match sh.hostChan with
    | [] => some ({ sh with done := sh.done + 1 }, .stopped .draining)
    | ip :: rest => some ({ sh with hostChan := rest }, .scanning ip)
  | .scanning _, .scanned none => some (sh, .loopTop)
  | .scanning _, .scanned (some h) =>
    if h.Domain.length = 0 then
      some ({ sh with log := sh.log ++ [.ignoringDomain h.Domain] }, .locking h)
    else
      let r := isIgnored { ignoreDomains := cfg.ignoreDomains, cache := sh.cache } fs h.Domain
      if r.ret then
        some ({ sh with cache := r.cache, log := sh.log ++ [.ignoringDomain h.Domain] },
          .locking h)
      else
        some ({ sh with cache := r.cache }, .locking h)
  | .locking h, .append now =>
    some ({ sh with chs := sh.chs ++ [h], lastChecked := now }, .quotaCheck)
  | .quotaCheck, .checkQuota =>
    if (sh.chs.length : Int) ≥ cfg.best ∧ cfg.best > 0 then
      some ({ sh with done := sh.done + 1, cancelled := true }, .stopped .quotaReached)
    else
      some (sh, .loopTop)
  | _, _ => none

/-- The shared state and the control points of the `thread` workers. -/
structure Engine where
  shared : Shared
  workers : List Pc

/-- The state after line 157: no result, `lastChecked` read from the clock, the token unset,
`thread` workers at the top of their loop. -/
def Engine.init (thread : Nat) (now : Int) (hosts : List Host) : Engine :=
  { shared := { chs := [], lastChecked := now, cancelled := false, hostChan := hosts, done := 0,
                cache := none, log := [] },
    workers := List.replicate thread .loopTop }

/-- One step of the engine: the worker `w` performs the action `a`. -/
def Engine.step (cfg : Flags) (fs : FileSystem) (e : Engine) (w : Nat) (a : Action) :
    Option Engine :=
  match e.workers[w]? with
  | none => none
  | some pc =>
    match workerStep cfg fs e.shared pc a with
    | none => none
    | some (sh, pc1) => some { shared := sh, workers := e.workers.set w pc1 }

/-- A run of the engine along a schedule, a list of workers and their actions; `none` when
an action of the schedule is not enabled. -/
def Engine.run (cfg : Flags) (fs : FileSystem) : Engine → List (Nat × Action) → Option Engine
  | e, [] => some e
  | e, (w, a) :: rest =>
    match Engine.step cfg fs e w a with
    | none => none
    | some e1 => Engine.run cfg fs e1 rest

/-- The predicate of `wg.Wait()` returning: every worker has called `wg.Done()`. -/
def Engine.joined (thread : Nat) (e : Engine) : Prop :=
  e.shared.done = thread

/-- The control points from which a worker can still reach the append of line 183 without
going through the quota check of line 186. -/
def Pc.active : Pc → Bool
  | .loopTop => true
  | .atSelect => true
  | .scanning _ => true
  | .locking _ => true
  | .quotaCheck => false
  | .stopped _ => false

/-- The control points after `return`. -/
def Pc.isStopped : Pc → Bool
  | .stopped _ => true
  | _ => false

/-- Flags of the examples: a quota of one result, the default idle bound, no ignore list. -/
def exampleFlags : Flags := { best := 1, maxWait := 15, ignoreDomains := "" }

/-- A file system without any file. -/
def noFiles : FileSystem := fun _ => none

/-- Two hosts of the examples. -/
def exampleHosts : List Host :=
  [{ Address := "10.0.0.1", Origin := "10.0.0.0/30" },
   { Address := "10.0.0.2", Origin := "10.0.0.0/30" }]

/-- The result of a successful probe in the examples. -/
def exampleResult : ScanResponse := { IP := "10.0.0.1", Domain := "a.example" }

/-- Two workers, both inside `ScanTLS` when the first result reaches the quota of one: the
second result is appended after the token is set. -/
def overshootSchedule : List (Nat × Action) :=
  [(0, .idleCheck 0), (0, .receive), (1, .idleCheck 0), (1, .receive),
   (0, .scanned (some exampleResult)), (0, .append 1), (0, .checkQuota),
   (1, .scanned (some exampleResult)), (1, .append 2), (1, .checkQuota)]

/-- Two workers: the second one reaches the quota of one and sets the token, then the first
one starts an iteration, its `select` receives the host that is ready, and the probe
succeeds. -/
def lateReceiveSchedule : List (Nat × Action) :=
  [(1, .idleCheck 0), (1, .receive), (1, .scanned (some exampleResult)), (1, .append 1),
   (1, .checkQuota),
   (0, .idleCheck 2), (0, .receive), (0, .scanned (some exampleResult)), (0, .append 3)]

/-- One worker and a quota of one: a full run. -/
def singleSchedule : List (Nat × Action) :=
  [(0, .idleCheck 0), (0, .receive), (0, .scanned (some exampleResult)), (0, .append 1),
   (0, .checkQuota)]

/-- The invariant of the runs of the engine, for `thread` workers and the quota `cfg.best`:
the number of workers, the count of `wg.Done()` calls, the bound on the results past the
quota, and how the token and the exits of the workers depend on each other. -/
def Engine.Inv (cfg : Flags) (thread : Nat) (e : Engine) : Prop :=
  e.workers.length = thread ∧
  e.shared.done = e.workers.countP Pc.isStopped ∧
  ((e.shared.chs.length : Int) < cfg.best ∨
    (e.shared.chs.length : Int) + (e.workers.countP Pc.active : Int) ≤ cfg.best + thread - 1) ∧
  (e.shared.cancelled = true →
    cfg.best ≤ (e.shared.chs.length : Int) ∨
      ∃ i : Nat, e.workers[i]? = some (Pc.stopped Exit.idleTimeout)) ∧
  (∀ i : Nat, e.workers[i]? = some (Pc.stopped Exit.cancelled) ∨
      e.workers[i]? = some (Pc.stopped Exit.quotaReached) → e.shared.cancelled = true)

/-- The number of steps a worker has left in its iteration of the loop. -/
def Pc.remaining : Pc → Nat
  | .loopTop => 5
  | .atSelect => 4
  | .scanning _ => 3
  | .locking _ => 2
  | .quotaCheck => 1
  | .stopped _ => 0

/-- The control point of line 186. -/
def Pc.atQuota : Pc → Bool
  | .quotaCheck => true
  | _ => false

/-- The action of a probe that fails: `ScanTLS` returns nil. -/
def Action.isFailedProbe : Action → Bool
  | .scanned none => true
  | _ => false

/-- A bound on the number of steps the engine has left when the probes succeed: the steps left
in the iterations under way, five for each result still missing before the quota, and five for
each worker that will find the quota not reached at its check. -/
def Engine.potential (cfg : Flags) (e : Engine) : Int :=
  ((e.workers.map Pc.remaining).sum : Int) +
    5 * max 0 (cfg.best - 1 - (e.shared.chs.length : Int)) +
    (if (e.shared.chs.length : Int) < cfg.best then 5 * (e.workers.countP Pc.atQuota : Int)
     else 0)

/-- The state at the end of the run of one worker along `singleSchedule`. -/
def singleRunResult : Engine :=
  { shared := { chs := [exampleResult], lastChecked := 1, cancelled := true,
                hostChan := [{ Address := "10.0.0.2", Origin := "10.0.0.0/30" }], done := 1,
                cache := none, log := [] },
    workers := [.stopped .quotaReached] }

/-- A shared state in which the token is set and a host is ready. -/
def cancelledShared : Shared :=
  { chs := [exampleResult], lastChecked := 1, cancelled := true,
    hostChan := [{ Address := "10.0.0.2", Origin := "10.0.0.0/30" }], done := 1,
    cache := none, log := [] }

/-! ## Theorems on the strings -/

theorem hasPrefix_iff (s p : List Char) : hasPrefix s p = true ↔ p <+: s := by
  induction s generalizing p with
  | nil =>
    cases p with
    | nil => simp [hasPrefix]
    | cons b p => simp [hasPrefix]
  | cons a s ih =>
    cases p with
    | nil => simp [hasPrefix]
    | cons b p =>
      simp only [hasPrefix, Bool.and_eq_true, beq_iff_eq, ih, List.cons_prefix_cons]
      constructor
      · rintro ⟨h1, h2⟩; exact ⟨h1.symm, h2⟩
      · rintro ⟨h1, h2⟩; exact ⟨h1.symm, h2⟩

theorem containsChars_iff (s c : List Char) : containsChars s c = true ↔ c <:+: s := by
  induction s with
  | nil =>
    simp only [containsChars, hasPrefix_iff]
    constructor
    · intro h; exact h.isInfix
    · intro h
      have : c = [] := List.eq_nil_of_infix_nil h
      subst this; exact List.prefix_refl _
  | cons a s ih =>
    simp only [containsChars, Bool.or_eq_true, hasPrefix_iff, ih]
    rw [List.infix_cons_iff]

theorem any_builtin_iff (s : String) :
    builtinIgnoreList.any (fun c => stringsContains s c) = true ↔
      ∃ c ∈ builtinIgnoreList, c.data <:+: s.data := by
  simp only [List.any_eq_true, stringsContains, containsChars_iff]

theorem splitOnChar_ne_nil (sep : Char) (cs : List Char) : splitOnChar sep cs ≠ [] := by
  cases cs with
  | nil => simp [splitOnChar]
  | cons c cs =>
    simp only [splitOnChar]
    split
    · simp
    · split <;> simp

/-- Joining the pieces of `splitOnChar` gives the list back. -/
theorem joinWithChar_splitOnChar (sep : Char) (cs : List Char) :
    joinWithChar sep (splitOnChar sep cs) = cs := by
  induction cs with
  | nil => simp [splitOnChar, joinWithChar]
  | cons c cs ih =>
    simp only [splitOnChar]
    cases h : splitOnChar sep cs with
    | nil => exact absurd h (splitOnChar_ne_nil sep cs)
    | cons w ws =>
      rw [h] at ih
      by_cases hc : c = sep
      · simp only [hc, if_true]
        simp [joinWithChar, ih]
      · simp only [hc, if_false]
        cases ws with
        | nil =>
          simp only [joinWithChar] at ih ⊢
          rw [ih]
        | cons w2 ws =>
          simp only [joinWithChar] at ih ⊢
          rw [← ih]; simp

/-- No piece of `splitOnChar` holds the separator. -/
theorem splitOnChar_no_sep (sep : Char) (cs : List Char) :
    ∀ w ∈ splitOnChar sep cs, sep ∉ w := by
  induction cs with
  | nil => simp [splitOnChar]
  | cons c cs ih =>
    simp only [splitOnChar]
    cases h : splitOnChar sep cs with
    | nil => exact absurd h (splitOnChar_ne_nil sep cs)
    | cons w ws =>
      rw [h] at ih
      by_cases hc : c = sep
      · simp only [hc, if_true]
        intro v hv
        rcases List.mem_cons.1 hv with rfl | hv
        · simp
        · exact ih v hv
      · simp only [hc, if_false]
        intro v hv
        rcases List.mem_cons.1 hv with rfl | hv
        · intro hmem
          rcases List.mem_cons.1 hmem with h1 | h1
          · exact hc h1.symm
          · exact ih w (List.mem_cons_self _ _) h1
        · exact ih v (List.mem_cons_of_mem _ hv)

/-- Reading the map filled by the loop of lines 62 to 64 is membership in the list of keys. -/
theorem foldl_set_true (l : List String) (m : GoMap) (s : String) :
    (l.foldl (fun m d => GoMap.set m d true) m) s = true ↔ s ∈ l ∨ m s = true := by
  induction l generalizing m with
  | nil => simp
  | cons d l ih =>
    simp only [List.foldl_cons, ih, List.mem_cons, GoMap.set]
    by_cases h : s = d
    · simp [h]
    · simp [h]

/-- A list without the separator is its own single piece. -/
theorem splitOnChar_of_not_mem (sep : Char) (w : List Char) (h : sep ∉ w) :
    splitOnChar sep w = [w] := by
  induction w with
  | nil => rfl
  | cons c w ih =>
    have hc : c ≠ sep := fun hcs => h (hcs ▸ List.mem_cons_self _ _)
    have hw : sep ∉ w := fun hm => h (List.mem_cons_of_mem _ hm)
    simp only [splitOnChar, ih hw, hc, if_false]

theorem splitOnChar_cons (sep c : Char) (cs w : List Char) (ws : List (List Char))
    (h : splitOnChar sep cs = w :: ws) :
    splitOnChar sep (c :: cs) = if c = sep then [] :: w :: ws else (c :: w) :: ws := by
  simp only [splitOnChar, h]

/-- The pieces of two lists joined by the separator are the pieces of the first followed by
the pieces of the second. -/
theorem splitOnChar_append_sep (sep : Char) (a b : List Char) :
    splitOnChar sep (a ++ sep :: b) = splitOnChar sep a ++ splitOnChar sep b := by
  induction a with
  | nil =>
    cases hb : splitOnChar sep b with
    | nil => exact absurd hb (splitOnChar_ne_nil sep b)
    | cons w ws =>
      rw [List.nil_append, splitOnChar_cons sep sep b w ws hb]
      simp [splitOnChar]
  | cons c a ih =>
    cases ha : splitOnChar sep a with
    | nil => exact absurd ha (splitOnChar_ne_nil sep a)
    | cons w ws =>
      have h1 : splitOnChar sep (a ++ sep :: b) = w :: (ws ++ splitOnChar sep b) := by
        rw [ih, ha]; rfl
      rw [List.cons_append, splitOnChar_cons sep c _ w _ h1, splitOnChar_cons sep c a w ws ha]
      split <;> simp

/-- Where the pieces lie: the first piece is at the start of the list, every other piece
follows a separator, and every piece ends at the end of the list or before a separator. -/
theorem splitOnChar_decompose (sep : Char) (cs : List Char) :
    ∀ w0 ws, splitOnChar sep cs = w0 :: ws →
      (∃ post, cs = w0 ++ post ∧ (post = [] ∨ ∃ q, post = sep :: q)) ∧
      ∀ w ∈ ws, ∃ p post, cs = (p ++ [sep]) ++ w ++ post ∧
        (post = [] ∨ ∃ q, post = sep :: q) := by
  induction cs with
  | nil =>
    intro w0 ws h
    simp only [splitOnChar, List.cons.injEq] at h
    obtain ⟨rfl, rfl⟩ := h
    exact ⟨⟨[], rfl, Or.inl rfl⟩, fun w hw => absurd hw (List.not_mem_nil w)⟩
  | cons c cs ih =>
    intro w0 ws h
    simp only [splitOnChar] at h
    cases hcs : splitOnChar sep cs with
    | nil => exact absurd hcs (splitOnChar_ne_nil sep cs)
    | cons v0 vs =>
      rw [hcs] at h
      obtain ⟨⟨post0, hpost0, hcond0⟩, htail⟩ := ih v0 vs hcs
      by_cases hc : c = sep
      · simp only [hc, if_true, List.cons.injEq] at h
        obtain ⟨rfl, rfl⟩ := h
        refine ⟨⟨sep :: cs, by simp [hc], Or.inr ⟨cs, rfl⟩⟩, ?_⟩
        intro w hw
        rcases List.mem_cons.1 hw with rfl | hw
        · exact ⟨[], post0, by simp [hc, hpost0], hcond0⟩
        · obtain ⟨p, post, hp, hcond⟩ := htail w hw
          exact ⟨sep :: p, post, by rw [hc, hp]; simp, hcond⟩
      · simp only [hc, if_false, List.cons.injEq] at h
        obtain ⟨rfl, rfl⟩ := h
        refine ⟨⟨post0, by simp [hpost0], hcond0⟩, ?_⟩
        intro w hw
        obtain ⟨p, post, hp, hcond⟩ := htail w hw
        exact ⟨c :: p, post, by rw [hp]; simp, hcond⟩

/-- The pieces of `splitOnChar` are the segments of the list that hold no separator, start at
the start of the list or after a separator, and end at the end of the list or before a
separator. -/
theorem mem_splitOnChar_iff (sep : Char) (cs w : List Char) :
    w ∈ splitOnChar sep cs ↔
      sep ∉ w ∧ ∃ pre post, cs = pre ++ w ++ post ∧
        (pre = [] ∨ ∃ p, pre = p ++ [sep]) ∧ (post = [] ∨ ∃ q, post = sep :: q) := by
  constructor
  · intro hw
    refine ⟨splitOnChar_no_sep sep cs w hw, ?_⟩
    cases hcs : splitOnChar sep cs with
    | nil => exact absurd hcs (splitOnChar_ne_nil sep cs)
    | cons w0 ws =>
      rw [hcs] at hw
      obtain ⟨⟨post0, hpost0, hcond0⟩, htail⟩ := splitOnChar_decompose sep cs w0 ws hcs
      rcases List.mem_cons.1 hw with rfl | hw
      · exact ⟨[], post0, by simpa using hpost0, Or.inl rfl, hcond0⟩
      · obtain ⟨p, post, hp, hcond⟩ := htail w hw
        exact ⟨p ++ [sep], post, hp, Or.inr ⟨p, rfl⟩, hcond⟩
  · rintro ⟨hno, pre, post, hcs, hpre, hpost⟩
    have hw := splitOnChar_of_not_mem sep w hno
    rcases hpre with rfl | ⟨p, rfl⟩
    · rcases hpost with rfl | ⟨q, rfl⟩
      · simp only [List.nil_append, List.append_nil] at hcs
        rw [hcs, hw]; simp
      · simp only [List.nil_append] at hcs
        rw [hcs, splitOnChar_append_sep, hw]; simp
    · rcases hpost with rfl | ⟨q, rfl⟩
      · have : cs = p ++ sep :: w := by rw [hcs]; simp
        rw [this, splitOnChar_append_sep, hw]; simp
      · have : cs = p ++ sep :: (w ++ sep :: q) := by rw [hcs]; simp
        rw [this, splitOnChar_append_sep, splitOnChar_append_sep, hw]; simp

/-- The members of `stringsSplit data` are the lines of `data`: the strings without a line
feed that start at the start of `data` or after a line feed, and end at the end of `data` or
before a line feed. -/
theorem mem_stringsSplit_iff (s data : String) :
    s ∈ stringsSplit data ↔
      Char.ofNat 10 ∉ s.data ∧ ∃ pre post : List Char, data.data = pre ++ s.data ++ post ∧
        (pre = [] ∨ ∃ p, pre = p ++ [Char.ofNat 10]) ∧
        (post = [] ∨ ∃ q, post = Char.ofNat 10 :: q) := by
  have h := mem_splitOnChar_iff newline data.data s.data
  unfold newline at h
  rw [← h]
  unfold stringsSplit newline
  simp only [List.mem_map]
  constructor
  · rintro ⟨w, hw, rfl⟩
    exact hw
  · intro hw
    exact ⟨s.data, hw, rfl⟩

/-! ## Theorems on the Domain Ignore Filter -/

theorem length_eq_zero_iff (s : String) : s.length = 0 ↔ s = "" := by
  constructor
  · intro h
    have h1 : s.data = [] := List.length_eq_zero.1 h
    cases s
    simp_all
  · rintro rfl; rfl

/-- C3. A domain that contains an entry of `builtinIgnoreList` as a substring is reported as
not ignored (`isIgnored` returns false), whatever the ignore-list path, the content of the
ignore-list file and the package-level cache. -/
theorem isIgnored_builtin_match (g : Globals) (fs : FileSystem) (s : String)
    (h : ∃ c ∈ builtinIgnoreList, c.data <:+: s.data) :
    (isIgnored g fs s).ret = false := by
  have h1 := (any_builtin_iff s).2 h
  simp [isIgnored, h1]

theorem isIgnored_builtin_match_witness :
    (∃ c ∈ builtinIgnoreList, c.data <:+: ("cdn.cloudflare.net" : String).data) ∧
    (isIgnored { ignoreDomains := "ignore.txt", cache := none }
      (fun _ => some "cdn.cloudflare.net") "cdn.cloudflare.net").ret = false :=
  ⟨(any_builtin_iff _).1 (by decide),
   isIgnored_builtin_match _ _ _ ((any_builtin_iff _).1 (by decide))⟩

/-- C4. For a domain that contains none of the built-in substrings (the package-level cache
being nil, as it always is), `isIgnored` returns true exactly when an ignore-list path is
configured, the file can be read and the domain is equal to one of the pieces of the file
content split on the line feed: the domain holds no line feed and the content is the domain
with, before it, nothing or a text that ends in a line feed and, after it, nothing or a text
that starts with a line feed. With no path configured it returns false. -/
theorem isIgnored_file_membership (g : Globals) (fs : FileSystem) (s : String)
    (hcache : g.cache = none)
    (hno : ¬ ∃ c ∈ builtinIgnoreList, c.data <:+: s.data) :
    ((isIgnored g fs s).ret = true ↔
      g.ignoreDomains ≠ "" ∧
        ∃ data, fs g.ignoreDomains = some data ∧
          Char.ofNat 10 ∉ s.data ∧
          ∃ pre post : List Char, data.data = pre ++ s.data ++ post ∧
            (pre = [] ∨ ∃ p, pre = p ++ [Char.ofNat 10]) ∧
            (post = [] ∨ ∃ q, post = Char.ofNat 10 :: q)) ∧
    (g.ignoreDomains = "" → (isIgnored g fs s).ret = false) := by
  have h1 : builtinIgnoreList.any (fun c => stringsContains s c) = false := by
    rw [Bool.eq_false_iff]
    intro h
    exact hno ((any_builtin_iff s).1 h)
  have hif : isIgnored g fs s =
      if g.ignoreDomains.length = 0 then
        { ret := false, cache := g.cache, reads := [] }
      else
        match fs g.ignoreDomains with
        | none => { ret := false, cache := g.cache, reads := [g.ignoreDomains] }
        | some data =>
          { ret := ((stringsSplit data).foldl (fun m d => GoMap.set m d true) GoMap.empty) s,
            cache := g.cache, reads := [g.ignoreDomains] } := by
    simp only [isIgnored, h1, hcache]
    simp
  have hmem : ((isIgnored g fs s).ret = true ↔
      g.ignoreDomains ≠ "" ∧
        ∃ data, fs g.ignoreDomains = some data ∧ s ∈ stringsSplit data) ∧
      (g.ignoreDomains = "" → (isIgnored g fs s).ret = false) := by
    rw [hif]
    by_cases hp : g.ignoreDomains.length = 0
    · have hp2 := (length_eq_zero_iff _).1 hp
      simp [hp, hp2]
    · have hp2 : g.ignoreDomains ≠ "" := fun h => hp ((length_eq_zero_iff _).2 h)
      simp only [hp, if_false]
      cases hfs : fs g.ignoreDomains with
      | none => simp [hp2]
      | some data =>
        simp only [foldl_set_true, GoMap.empty]
        simp [hp2]
  simp only [mem_stringsSplit_iff] at hmem
  exact hmem

theorem isIgnored_file_membership_witness :
    (¬ ∃ c ∈ builtinIgnoreList, c.data <:+: ("example.org" : String).data) ∧
    (isIgnored { ignoreDomains := "ignore.txt", cache := none }
        (fun _ => some "a.com\nexample.org") "example.org").ret = true ∧
    (isIgnored { ignoreDomains := "", cache := none }
        (fun _ => some "a.com\nexample.org") "example.org").ret = false ∧
    (isIgnored { ignoreDomains := "ignore.txt", cache := none }
        (fun _ => some "a.com\nexample.org") "example").ret = false :=
  ⟨fun h => absurd ((any_builtin_iff _).2 h) (by decide),
   (isIgnored_file_membership { ignoreDomains := "ignore.txt", cache := none }
      (fun _ => some "a.com\nexample.org") "example.org" rfl
      (fun h => absurd ((any_builtin_iff _).2 h) (by decide))).1.2
      ⟨by decide, "a.com\nexample.org", rfl, by decide, ("a.com\n" : String).data, [],
        by decide, Or.inr ⟨("a.com" : String).data, by decide⟩, Or.inl rfl⟩,
   (isIgnored_file_membership { ignoreDomains := "", cache := none }
      (fun _ => some "a.com\nexample.org") "example.org" rfl
      (fun h => absurd ((any_builtin_iff _).2 h) (by decide))).2 rfl,
   by decide⟩

/-- C9, as the claim states it, fails: with an ignore-list path configured, the call for the
domain `cdn.cloudflare.net` returns at the built-in check and reads no file. -/
theorem isIgnored_builtin_reads_nothing :
    ("ignore.txt" : String).length ≠ 0 ∧
    (isIgnored { ignoreDomains := "ignore.txt", cache := none }
      (fun _ => some "cdn.cloudflare.net") "cdn.cloudflare.net").reads = [] := by
  decide

/-- C9, amended. No call of `isIgnored` assigns the package-level cache: starting from the nil
cache it is nil after the first call and after a second one. A call whose domain contains no
built-in substring, with a path configured, reads the file again (each of the two calls reads
it once); a call whose domain contains a built-in substring reads nothing. The value returned
depends only on the domain, the path and the content of the file at the time of the call: two
calls with the same domain that see the same content return the same value. -/
theorem isIgnored_no_cache (g : Globals) (fs1 fs2 : FileSystem) (s : String)
    (hcache : g.cache = none) :
    (isIgnoredTwice g fs1 fs2 s s).1.cache = none ∧
    (isIgnoredTwice g fs1 fs2 s s).2.cache = none ∧
    ((¬ ∃ c ∈ builtinIgnoreList, c.data <:+: s.data) → g.ignoreDomains ≠ "" →
      (isIgnoredTwice g fs1 fs2 s s).1.reads = [g.ignoreDomains] ∧
      (isIgnoredTwice g fs1 fs2 s s).2.reads = [g.ignoreDomains]) ∧
    ((∃ c ∈ builtinIgnoreList, c.data <:+: s.data) →
      (isIgnoredTwice g fs1 fs2 s s).1.reads = [] ∧
      (isIgnoredTwice g fs1 fs2 s s).2.reads = []) ∧
    (fs1 g.ignoreDomains = fs2 g.ignoreDomains →
      (isIgnoredTwice g fs1 fs2 s s).1.ret = (isIgnoredTwice g fs1 fs2 s s).2.ret) := by
  have hc : ∀ (g0 : Globals) (fs : FileSystem), (isIgnored g0 fs s).cache = g0.cache := by
    intro g0 fs
    unfold isIgnored
    split
    · rfl
    · split
      · rfl
      · split
        · rfl
        · split <;> rfl
  have hg : ({ g with cache := (isIgnored g fs1 s).cache } : Globals) = g := by
    rw [hc]
  simp only [isIgnoredTwice, hg]
  refine ⟨by rw [hc]; exact hcache, by rw [hc]; exact hcache, ?_, ?_, ?_⟩
  · intro hno hp
    have h1 : builtinIgnoreList.any (fun c => stringsContains s c) = false := by
      rw [Bool.eq_false_iff]
      intro h
      exact hno ((any_builtin_iff s).1 h)
    have hp2 : g.ignoreDomains.length ≠ 0 := fun h => hp ((length_eq_zero_iff _).1 h)
    have hr : ∀ fs : FileSystem, (isIgnored g fs s).reads = [g.ignoreDomains] := by
      intro fs
      simp only [isIgnored, h1, hcache]
      simp only [hp2, if_false, Bool.false_eq_true]
      cases fs g.ignoreDomains <;> rfl
    exact ⟨hr fs1, hr fs2⟩
  · intro hyes
    have h1 := (any_builtin_iff s).2 hyes
    simp [isIgnored, h1]
  · intro hfs
    have hr : ∀ fs : FileSystem, (isIgnored g fs s).ret =
        if builtinIgnoreList.any (fun c => stringsContains s c) then false
        else if g.ignoreDomains.length = 0 then false
        else match fs g.ignoreDomains with
          | none => false
          | some data =>
            ((stringsSplit data).foldl (fun m d => GoMap.set m d true) GoMap.empty) s := by
      intro fs
      simp only [isIgnored, hcache]
      split
      · rfl
      · split
        · rfl
        · cases fs g.ignoreDomains <;> rfl
    rw [hr fs1, hr fs2, hfs]

theorem isIgnored_no_cache_witness :
    (isIgnoredTwice { ignoreDomains := "ignore.txt", cache := none }
      (fun _ => some "a.com\nexample.org") (fun _ => some "a.com\nexample.org")
      "example.org" "example.org").2.cache = none ∧
    (isIgnoredTwice { ignoreDomains := "ignore.txt", cache := none }
      (fun _ => some "a.com\nexample.org") (fun _ => some "a.com\nexample.org")
      "example.org" "example.org").2.reads = ["ignore.txt"] ∧
    (isIgnoredTwice { ignoreDomains := "ignore.txt", cache := none }
      (fun _ => some "a.com\nexample.org") (fun _ => some "a.com\nexample.org")
      "example.org" "example.org").1.ret =
    (isIgnoredTwice { ignoreDomains := "ignore.txt", cache := none }
      (fun _ => some "a.com\nexample.org") (fun _ => some "a.com\nexample.org")
      "example.org" "example.org").2.ret :=
  ⟨(isIgnored_no_cache { ignoreDomains := "ignore.txt", cache := none }
      (fun _ => some "a.com\nexample.org") (fun _ => some "a.com\nexample.org")
      "example.org" rfl).2.1,
   ((isIgnored_no_cache { ignoreDomains := "ignore.txt", cache := none }
      (fun _ => some "a.com\nexample.org") (fun _ => some "a.com\nexample.org")
      "example.org" rfl).2.2.1
      (fun h => absurd ((any_builtin_iff _).2 h) (by decide)) (by decide)).2,
   (isIgnored_no_cache { ignoreDomains := "ignore.txt", cache := none }
      (fun _ => some "a.com\nexample.org") (fun _ => some "a.com\nexample.org")
      "example.org" rfl).2.2.2.2 rfl⟩

/-! ## Theorems on the Best-Server Selector -/

theorem wrapInt64_of_range (x : Int) (h1 : -2 ^ 63 ≤ x) (h2 : x < 2 ^ 63) :
    wrapInt64 x = x := by
  unfold wrapInt64
  norm_num at h1 h2 ⊢
  omega

theorem load_new_of_lt (heap : Heap) (v : ScanResponse) (p : Ptr)
    (h : p < heap.cells.length) : (heap.new v).2.load p = heap.load p := by
  simp [Heap.new, Heap.load, List.getD_eq_getElem?_getD, List.getElem?_append_left h]

theorem load_new_fresh (heap : Heap) (v : ScanResponse) :
    (heap.new v).2.load (heap.new v).1 = v := by
  simp [Heap.new, Heap.load, List.getD_eq_getElem?_getD]

theorem load_new_default (heap : Heap) (p : Ptr) :
    (heap.new {}).2.load p = heap.load p := by
  rcases Nat.lt_trichotomy p heap.cells.length with h | h | h
  · exact load_new_of_lt heap _ p h
  · subst h
    simp [Heap.new, Heap.load, List.getD_eq_getElem?_getD]
  · have h1 : heap.cells.length ≤ p := Nat.le_of_lt h
    have h2 : (heap.cells ++ [({} : ScanResponse)]).length ≤ p := by
      simp; omega
    simp [Heap.new, Heap.load, List.getD_eq_getElem?_getD, List.getElem?_eq_none h1,
      List.getElem?_eq_none h2]

theorem load_storeDomain_of_ne (heap : Heap) (p q : Ptr) (d : String) (h : q ≠ p) :
    (heap.storeDomain p d).load q = heap.load q := by
  simp [Heap.storeDomain, Heap.load, List.getD_eq_getElem?_getD, List.getElem?_set_ne h.symm]

theorem load_storeDomain_same (heap : Heap) (p : Ptr) (d : String)
    (h : p < heap.cells.length) : ((heap.storeDomain p d).load p).Domain = d := by
  simp [Heap.storeDomain, Heap.load, List.getD_eq_getElem?_getD, List.getElem?_set_self, h]

/-- The loop over a list extended by one record is the loop over the list, then one more
iteration. -/
theorem selectLoop_append (heap : Heap) (CheckPing : PingOracle) (l : List Ptr) (c : Ptr)
    (k : Nat) (st : SelState) :
    selectLoop heap CheckPing k (l ++ [c]) st =
      selectStep heap CheckPing (k + l.length) c (selectLoop heap CheckPing k l st) := by
  induction l generalizing k st with
  | nil => simp [selectLoop]
  | cons a l ih =>
    have hk : k + (a :: l).length = k + 1 + l.length := by simp; omega
    rw [hk, List.cons_append, selectLoop, selectLoop, ih]

theorem queryAt_append_lt (CheckPing : PingOracle) (l : List Ptr) (c : Ptr) (j : Nat)
    (h : j < l.length) : queryAt CheckPing (l ++ [c]) j = queryAt CheckPing l j := by
  simp [queryAt, List.getElem?_append_left h]

theorem queryAt_append_length (CheckPing : PingOracle) (l : List Ptr) (c : Ptr) :
    queryAt CheckPing (l ++ [c]) l.length =
      match CheckPing l.length c with
      | .error _ => none
      | .ok ping => some ping := by
  simp [queryAt]

theorem queryAt_of_length_le (CheckPing : PingOracle) (l : List Ptr) (j : Nat)
    (h : l.length ≤ j) : queryAt CheckPing l j = none := by
  simp [queryAt, List.getElem?_eq_none h]

/-- The invariant of the selection loop, for latencies that are non-negative `int64` values:
the log has one line for each record, and either no query succeeded and the loop variables are
the initial ones, or the loop variables are the last record of least latency and its latency. -/
theorem selectLoop_spec (heap : Heap) (CheckPing : PingOracle) (fresh : Ptr) (chs : List Ptr)
    (hnn : ∀ i p, queryAt CheckPing chs i = some p → 0 ≤ p ∧ p < 2 ^ 63) :
    (selectLoop heap CheckPing 0 chs { bestPing := -1, bestServer := fresh, log := [] }).log.length
        = chs.length ∧
    (((∀ i, queryAt CheckPing chs i = none) ∧
        (selectLoop heap CheckPing 0 chs
          { bestPing := -1, bestServer := fresh, log := [] }).bestPing = -1 ∧
        (selectLoop heap CheckPing 0 chs
          { bestPing := -1, bestServer := fresh, log := [] }).bestServer = fresh) ∨
     (∃ i ch m, chs[i]? = some ch ∧ queryAt CheckPing chs i = some m ∧
        (∀ j p, queryAt CheckPing chs j = some p → m ≤ p) ∧
        (∀ j, i < j → queryAt CheckPing chs j ≠ some m) ∧
        (selectLoop heap CheckPing 0 chs
          { bestPing := -1, bestServer := fresh, log := [] }).bestServer = ch ∧
        (selectLoop heap CheckPing 0 chs
          { bestPing := -1, bestServer := fresh, log := [] }).bestPing = m ∧
        0 ≤ m)) := by
  induction chs using List.reverseRecOn with
  | nil =>
    refine ⟨by simp [selectLoop], Or.inl ⟨?_, by simp [selectLoop], by simp [selectLoop]⟩⟩
    intro i; simp [queryAt]
  | append_singleton l c ih =>
    have hnn1 : ∀ i p, queryAt CheckPing l i = some p → 0 ≤ p ∧ p < 2 ^ 63 := by
      intro i p hq
      have hi : i < l.length := by
        by_contra hcon
        rw [queryAt_of_length_le CheckPing l i (Nat.le_of_not_lt hcon)] at hq
        exact Option.noConfusion hq
      exact hnn i p (by rw [queryAt_append_lt CheckPing l c i hi]; exact hq)
    obtain ⟨ihlog, ih⟩ := ih hnn1
    have hlast := queryAt_append_length CheckPing l c
    have hbeyond : ∀ j, l.length < j → queryAt CheckPing (l ++ [c]) j = none := by
      intro j hj
      apply queryAt_of_length_le
      simp; omega
    rw [selectLoop_append]
    generalize selectLoop heap CheckPing 0 l { bestPing := -1, bestServer := fresh, log := [] }
      = st at ihlog ih
    simp only [Nat.zero_add, selectStep]
    cases hcp : CheckPing l.length c with
    | error e =>
      rw [hcp] at hlast
      simp only at hlast
      refine ⟨by simp [ihlog], ?_⟩
      rcases ih with ⟨hnone, hbp, hbs⟩ | ⟨i, ch, m, hi, hq, hmin, hlastm, hbs, hbp, hm⟩
      · left
        refine ⟨?_, hbp, hbs⟩
        intro j
        rcases Nat.lt_trichotomy j l.length with h | h | h
        · rw [queryAt_append_lt CheckPing l c j h]; exact hnone j
        · rw [h]; exact hlast
        · exact hbeyond j h
      · right
        have hil : i < l.length := by
          by_contra hcon
          rw [List.getElem?_eq_none (Nat.le_of_not_lt hcon)] at hi
          exact Option.noConfusion hi
        refine ⟨i, ch, m, ?_, ?_, ?_, ?_, hbs, hbp, hm⟩
        · rw [List.getElem?_append_left hil]; exact hi
        · rw [queryAt_append_lt CheckPing l c i hil]; exact hq
        · intro j p hj
          rcases Nat.lt_trichotomy j l.length with h | h | h
          · rw [queryAt_append_lt CheckPing l c j h] at hj; exact hmin j p hj
          · rw [h, hlast] at hj; exact Option.noConfusion hj
          · rw [hbeyond j h] at hj; exact Option.noConfusion hj
        · intro j hij
          rcases Nat.lt_trichotomy j l.length with h | h | h
          · rw [queryAt_append_lt CheckPing l c j h]; exact hlastm j hij
          · rw [h, hlast]; simp
          · rw [hbeyond j h]; simp
    | ok ping =>
      rw [hcp] at hlast
      simp only at hlast
      have hping := hnn l.length ping hlast
      have hwp : wrapInt64 ping = ping :=
        wrapInt64_of_range ping (by have := hping.1; norm_num; omega) hping.2
      have hget : (l ++ [c])[l.length]? = some c := by simp
      rcases ih with ⟨hnone, hbp, hbs⟩ | ⟨i, ch, m, hi, hq, hmin, hlastm, hbs, hbp, hm⟩
      · simp only [hbp, or_true, if_true]
        refine ⟨by simp [ihlog], Or.inr ⟨l.length, c, ping, hget, hlast, ?_, ?_, rfl, hwp,
          hping.1⟩⟩
        · intro j p hj
          rcases Nat.lt_trichotomy j l.length with h | h | h
          · rw [queryAt_append_lt CheckPing l c j h, hnone j] at hj
            exact Option.noConfusion hj
          · rw [h, hlast] at hj
            exact le_of_eq (Option.some.inj hj)
          · rw [hbeyond j h] at hj; exact Option.noConfusion hj
        · intro j hj
          rw [hbeyond j hj]; simp
      · have hil : i < l.length := by
          by_contra hcon
          rw [List.getElem?_eq_none (Nat.le_of_not_lt hcon)] at hi
          exact Option.noConfusion hi
        have hm2 := (hnn1 i m hq).2
        have hwm : wrapInt64 st.bestPing = m := by
          rw [hbp]
          exact wrapInt64_of_range m (by norm_num; omega) hm2
        have hne : st.bestPing ≠ -1 := by rw [hbp]; omega
        simp only [hwm, hne, or_false]
        by_cases hle : ping ≤ m
        · simp only [hle, if_true]
          refine ⟨by simp [ihlog], Or.inr ⟨l.length, c, ping, hget, hlast, ?_, ?_, rfl, hwp,
            hping.1⟩⟩
          · intro j p hj
            rcases Nat.lt_trichotomy j l.length with h | h | h
            · rw [queryAt_append_lt CheckPing l c j h] at hj
              exact le_trans hle (hmin j p hj)
            · rw [h, hlast] at hj
              exact le_of_eq (Option.some.inj hj)
            · rw [hbeyond j h] at hj; exact Option.noConfusion hj
          · intro j hj
            rw [hbeyond j hj]; simp
        · simp only [hle, if_false]
          refine ⟨by simp [ihlog], Or.inr ⟨i, ch, m, ?_, ?_, ?_, ?_, hbs, hbp, hm⟩⟩
          · rw [List.getElem?_append_left hil]; exact hi
          · rw [queryAt_append_lt CheckPing l c i hil]; exact hq
          · intro j p hj
            rcases Nat.lt_trichotomy j l.length with h | h | h
            · rw [queryAt_append_lt CheckPing l c j h] at hj; exact hmin j p hj
            · rw [h, hlast] at hj
              have : ping = p := Option.some.inj hj
              omega
            · rw [hbeyond j h] at hj; exact Option.noConfusion hj
          · intro j hij
            rcases Nat.lt_trichotomy j l.length with h | h | h
            · rw [queryAt_append_lt CheckPing l c j h]; exact hlastm j hij
            · rw [h, hlast]
              intro hcon
              have : ping = m := Option.some.inj hcon
              omega
            · rw [hbeyond j h]; simp


/-- The loop when every query fails: the loop variables are the initial ones and the log has
one line for each record, in the order of the list. -/
theorem selectLoop_all_fail (heap : Heap) (CheckPing : PingOracle) (chs : List Ptr) (k : Nat)
    (st : SelState)
    (hfail : ∀ i ch, chs[i]? = some ch → ∃ e, CheckPing (k + i) ch = .error e) :
    selectLoop heap CheckPing k chs st =
      { st with log := st.log ++
          chs.map (fun ch => LogEvent.failedToCheckPing (heap.load ch).Domain) } := by
  induction chs generalizing k st with
  | nil => simp [selectLoop]
  | cons a l ih =>
    obtain ⟨e, he⟩ := hfail 0 a (by simp)
    have hrest : ∀ i ch, l[i]? = some ch → ∃ e, CheckPing (k + 1 + i) ch = .error e := by
      intro i ch hi
      have := hfail (i + 1) ch (by simpa using hi)
      rwa [show k + (i + 1) = k + 1 + i by omega] at this
    rw [selectLoop, ih (k + 1) _ hrest]
    simp only [Nat.add_zero] at he
    simp [selectStep, he]

/-- The block of the selector, with the loop left folded. -/
theorem selector_eq (best : Int) (bestOut : String) (heap : Heap) (chs : List Ptr)
    (CheckPing : PingOracle) (hbest : best ≠ 0) (st : SelState)
    (hst : st = selectLoop (heap.new {}).2 CheckPing 0 chs
      { bestPing := -1, bestServer := heap.cells.length, log := [] }) :
    selector best bestOut heap chs CheckPing =
      some {
        heap := if st.bestPing = -1 then (heap.new {}).2.storeDomain st.bestServer "yahoo.com"
          else (heap.new {}).2,
        fresh := heap.cells.length,
        bestServer := st.bestServer,
        bestPing := st.bestPing,
        domain := ((if st.bestPing = -1 then
          (heap.new {}).2.storeDomain st.bestServer "yahoo.com"
          else (heap.new {}).2).load st.bestServer).Domain,
        written := if bestOut.length > 0 then
          some (bestOut, ((if st.bestPing = -1 then
            (heap.new {}).2.storeDomain st.bestServer "yahoo.com"
            else (heap.new {}).2).load st.bestServer).Domain)
          else none,
        log := st.log ++ [LogEvent.bestServerFound
          ((if st.bestPing = -1 then
            (heap.new {}).2.storeDomain st.bestServer "yahoo.com"
            else (heap.new {}).2).load st.bestServer).Domain st.bestPing] } := by
  subst hst
  simp [selector, hbest, Heap.new]

theorem mem_of_getElem_eq_some (chs : List Ptr) (i : Nat) (ch : Ptr) (h : chs[i]? = some ch) :
    ch ∈ chs :=
  List.getElem?_mem h

/-- C1. When at least one latency query succeeds and the latencies are non-negative `int64`
values, the selector (run with `best != 0`, on a list of allocated records) selects the last
result, in the order of evaluation, whose latency is the least latency of the successful
queries: results whose query failed are skipped, the reported latency is that minimum and the
reported domain is the domain of the selected record. -/
theorem selector_selects_last_minimum (best : Int) (bestOut : String) (heap : Heap)
    (chs : List Ptr) (CheckPing : PingOracle)
    (hbest : best ≠ 0)
    (hvalid : ∀ p ∈ chs, p < heap.cells.length)
    (hnn : ∀ i p, queryAt CheckPing chs i = some p → 0 ≤ p ∧ p < 2 ^ 63)
    (hsome : ∃ i p, queryAt CheckPing chs i = some p) :
    ∃ out i ch m, selector best bestOut heap chs CheckPing = some out ∧
      chs[i]? = some ch ∧ queryAt CheckPing chs i = some m ∧
      (∀ j p, queryAt CheckPing chs j = some p → m ≤ p) ∧
      (∀ j, i < j → queryAt CheckPing chs j ≠ some m) ∧
      out.bestServer = ch ∧ out.bestPing = m ∧ out.domain = (heap.load ch).Domain := by
  obtain ⟨_, hspec⟩ := selectLoop_spec (heap.new {}).2 CheckPing heap.cells.length chs hnn
  rcases hspec with ⟨hnone, _, _⟩ | ⟨i, ch, m, hi, hq, hmin, hlast, hbs, hbp, hm⟩
  · obtain ⟨i, p, hp⟩ := hsome
    rw [hnone i] at hp
    exact Option.noConfusion hp
  · refine ⟨_, i, ch, m, selector_eq best bestOut heap chs CheckPing hbest _ rfl, hi, hq, hmin,
      hlast, hbs, hbp, ?_⟩
    have hne : m ≠ -1 := by omega
    simp only [hbp, hne, if_false, hbs]
    rw [load_new_of_lt heap _ ch (hvalid ch (mem_of_getElem_eq_some chs i ch hi))]

/-- C2. When `best != 0` and every latency query fails (also on the empty list), the domain
that the selector reports, and writes to `bestOut` when that path is set, is the literal
`yahoo.com`, which is not empty; every record of the list has been queried, one log line for
each in the order of the list, so no failing query stops the evaluation of the others. -/
theorem selector_fallback (best : Int) (bestOut : String) (heap : Heap)
    (chs : List Ptr) (CheckPing : PingOracle)
    (hbest : best ≠ 0)
    (hfail : ∀ i ch, chs[i]? = some ch → ∃ e, CheckPing i ch = .error e) :
    ∃ out, selector best bestOut heap chs CheckPing = some out ∧
      out.domain = "yahoo.com" ∧ out.domain ≠ "" ∧
      out.written = (if bestOut.length > 0 then some (bestOut, "yahoo.com") else none) ∧
      out.log = chs.map (fun ch => LogEvent.failedToCheckPing (heap.load ch).Domain) ++
        [LogEvent.bestServerFound "yahoo.com" (-1)] := by
  have hloop := selectLoop_all_fail (heap.new {}).2 CheckPing chs 0
    { bestPing := -1, bestServer := heap.cells.length, log := [] }
    (by intro i ch hi; simpa using hfail i ch hi)
  have hdom : (((heap.new {}).2.storeDomain heap.cells.length "yahoo.com").load
      heap.cells.length).Domain = "yahoo.com" :=
    load_storeDomain_same _ _ _ (by simp [Heap.new])
  refine ⟨_, selector_eq best bestOut heap chs CheckPing hbest _ rfl, ?_, ?_, ?_, ?_⟩
  · simp only [hloop, if_true]
    exact hdom
  · simp only [hloop, if_true]
    rw [hdom]; decide
  · simp only [hloop, if_true]
    rw [hdom]
  · simp only [hloop, if_true]
    rw [hdom]
    simp only [List.nil_append, load_new_default]

theorem steadyPings_range (chs : List Ptr) :
    ∀ i p, queryAt steadyPings chs i = some p → 0 ≤ p ∧ p < 2 ^ 63 := by
  intro i p h
  unfold queryAt steadyPings at h
  split at h
  · exact Option.noConfusion h
  · have h2 : (10 : Int) = p := Option.some.inj h
    subst h2; norm_num

/-- C10, as the claim states it, fails: the list holds one record whose own domain is
`yahoo.com`, its latency query succeeds with the non-negative latency 10, and the domain that
the selector reports is the text of the placeholder although a query succeeded; the reported
record is the record of the list, at address 0, not the fresh record, at address 1. -/
theorem selector_reports_listed_yahoo :
    ((1 : Int) ≠ 0 ∧ (∀ p ∈ [0], p < yahooHeap.cells.length) ∧
      (∀ i p, queryAt steadyPings [0] i = some p → 0 ≤ p ∧ p < 2 ^ 63)) ∧
    queryAt steadyPings [0] 0 = some 10 ∧
    (selector 1 "" yahooHeap [0] steadyPings).map
      (fun o => (o.bestServer, o.fresh, o.domain)) = some (0, 1, "yahoo.com") :=
  ⟨⟨by decide, by decide, steadyPings_range _⟩, by decide, by decide⟩

/-- C10, amended. When `best != 0`, the list holds allocated records and the successful
latency queries return non-negative `int64` values, the selector leaves every record allocated
before it as it was, in particular every record of the list; the record it allocates is not an
element of the list and is the only one it may write. The reported record is that fresh record
if and only if no latency query succeeded, and it then carries the placeholder `yahoo.com`;
when a query succeeded the selector writes nothing and reports a record of the list with the
domain that record has, whatever that domain is. -/
theorem selector_frame (best : Int) (bestOut : String) (heap : Heap)
    (chs : List Ptr) (CheckPing : PingOracle)
    (hbest : best ≠ 0)
    (hvalid : ∀ p ∈ chs, p < heap.cells.length)
    (hnn : ∀ i p, queryAt CheckPing chs i = some p → 0 ≤ p ∧ p < 2 ^ 63) :
    ∃ out, selector best bestOut heap chs CheckPing = some out ∧
      (∀ p, p < heap.cells.length → out.heap.load p = heap.load p) ∧
      (∀ p ∈ chs, out.heap.load p = heap.load p) ∧
      out.fresh = heap.cells.length ∧ out.fresh ∉ chs ∧
      (out.bestServer = out.fresh ↔ ∀ i, queryAt CheckPing chs i = none) ∧
      ((∀ i, queryAt CheckPing chs i = none) →
        out.domain = "yahoo.com" ∧ (out.heap.load out.fresh).Domain = "yahoo.com") ∧
      ((∃ i p, queryAt CheckPing chs i = some p) →
        out.bestServer ∈ chs ∧ out.heap = (heap.new {}).2 ∧
        out.domain = (heap.load out.bestServer).Domain) := by
  obtain ⟨_, hspec⟩ := selectLoop_spec (heap.new {}).2 CheckPing heap.cells.length chs hnn
  have hfresh : heap.cells.length ∉ chs := fun h => Nat.lt_irrefl _ (hvalid _ h)
  have hdom : (((heap.new {}).2.storeDomain heap.cells.length "yahoo.com").load
      heap.cells.length).Domain = "yahoo.com" :=
    load_storeDomain_same _ _ _ (by simp [Heap.new])
  refine ⟨_, selector_eq best bestOut heap chs CheckPing hbest _ rfl, ?_⟩
  rcases hspec with ⟨hnone, hbp, hbs⟩ | ⟨i, ch, m, hi, hq, hmin, hlast, hbs, hbp, hm⟩
  · have hold : ∀ p, p < heap.cells.length →
        ((heap.new {}).2.storeDomain heap.cells.length "yahoo.com").load p = heap.load p := by
      intro p hp
      rw [load_storeDomain_of_ne _ _ _ _ (Nat.ne_of_lt hp), load_new_of_lt heap _ p hp]
    simp only [hbp, hbs, if_true]
    refine ⟨hold, fun p hp => hold p (hvalid p hp), trivial, hfresh, ?_, ?_, ?_⟩
    · exact ⟨fun _ => hnone, fun _ => trivial⟩
    · exact fun _ => ⟨hdom, hdom⟩
    · rintro ⟨j, p, hj⟩
      rw [hnone j] at hj
      exact Option.noConfusion hj
  · have hne : m ≠ -1 := by omega
    have hmem : ch ∈ chs := mem_of_getElem_eq_some chs i ch hi
    simp only [hbp, hbs, hne, if_false]
    refine ⟨fun p hp => load_new_of_lt heap _ p hp,
      fun p hp => load_new_of_lt heap _ p (hvalid p hp), trivial, hfresh, ?_, ?_, ?_⟩
    · constructor
      · intro h1
        exact absurd (h1 ▸ hmem) hfresh
      · intro hall
        rw [hall i] at hq
        exact Option.noConfusion hq
    · intro hall
      rw [hall i] at hq
      exact Option.noConfusion hq
    · intro _
      exact ⟨hmem, trivial, by rw [load_new_of_lt heap _ ch (hvalid ch hmem)]⟩

theorem examplePings_range (chs : List Ptr) :
    ∀ i p, queryAt examplePings chs i = some p → 0 ≤ p ∧ p < 2 ^ 63 := by
  intro i p h
  unfold queryAt examplePings at h
  split at h
  · exact Option.noConfusion h
  · split at h
    · exact Option.noConfusion h
    · rename_i ping hp
      have h2 : ping = p := Option.some.inj h
      subst h2
      split at hp
      · have : (50 : Int) = ping := Except.ok.inj hp
        subst this; norm_num
      · have : (30 : Int) = ping := Except.ok.inj hp
        subst this; norm_num

set_option maxRecDepth 8192

theorem selector_selects_last_minimum_witness :
    ((1 : Int) ≠ 0 ∧ (∀ p ∈ [0, 1, 2], p < exampleHeap.cells.length) ∧
      (∃ i p, queryAt examplePings [0, 1, 2] i = some p)) ∧
    (selector 1 "" exampleHeap [0, 1, 2] examplePings).map
      (fun o => (o.bestServer, o.bestPing, o.domain)) = some (2, 30, "c.example") ∧
    ∃ out i ch m, selector 1 "" exampleHeap [0, 1, 2] examplePings = some out ∧
      [0, 1, 2][i]? = some ch ∧ queryAt examplePings [0, 1, 2] i = some m ∧
      (∀ j p, queryAt examplePings [0, 1, 2] j = some p → m ≤ p) ∧
      (∀ j, i < j → queryAt examplePings [0, 1, 2] j ≠ some m) ∧
      out.bestServer = ch ∧ out.bestPing = m ∧ out.domain = (exampleHeap.load ch).Domain :=
  ⟨⟨by decide, by decide, ⟨0, 50, by decide⟩⟩, by decide,
   selector_selects_last_minimum 1 "" exampleHeap [0, 1, 2] examplePings (by decide)
     (by decide) (examplePings_range _) ⟨0, 50, by decide⟩⟩

theorem selector_fallback_witness :
    (∀ i ch, [0, 1, 2][i]? = some ch → ∃ e, failingPings i ch = .error e) ∧
    ∃ out, selector 1 "best.txt" exampleHeap [0, 1, 2] failingPings = some out ∧
      out.domain = "yahoo.com" ∧ out.domain ≠ "" ∧
      out.written = (if ("best.txt" : String).length > 0 then some ("best.txt", "yahoo.com")
        else none) ∧
      out.log = [0, 1, 2].map (fun ch => LogEvent.failedToCheckPing (exampleHeap.load ch).Domain)
        ++ [LogEvent.bestServerFound "yahoo.com" (-1)] :=
  ⟨fun _ _ _ => ⟨"timeout", rfl⟩,
   selector_fallback 1 "best.txt" exampleHeap [0, 1, 2] failingPings (by decide)
     (fun _ _ _ => ⟨"timeout", rfl⟩)⟩

theorem selector_frame_witness :
    ∃ out, selector 1 "" exampleHeap [0, 1, 2] examplePings = some out ∧
      (∀ p, p < exampleHeap.cells.length → out.heap.load p = exampleHeap.load p) ∧
      (∀ p ∈ [0, 1, 2], out.heap.load p = exampleHeap.load p) ∧
      out.fresh = exampleHeap.cells.length ∧ out.fresh ∉ [0, 1, 2] ∧
      (out.bestServer = out.fresh ↔ ∀ i, queryAt examplePings [0, 1, 2] i = none) ∧
      ((∀ i, queryAt examplePings [0, 1, 2] i = none) →
        out.domain = "yahoo.com" ∧ (out.heap.load out.fresh).Domain = "yahoo.com") ∧
      ((∃ i p, queryAt examplePings [0, 1, 2] i = some p) →
        out.bestServer ∈ [0, 1, 2] ∧ out.heap = (exampleHeap.new {}).2 ∧
        out.domain = (exampleHeap.load out.bestServer).Domain) :=
  selector_frame 1 "" exampleHeap [0, 1, 2] examplePings (by decide) (by decide)
    (examplePings_range _)

/-! ## Theorems on the Concurrent Scan Engine -/

/-- The steps of a worker, by cases. -/
theorem workerStep_cases (cfg : Flags) (fs : FileSystem) (sh sh1 : Shared) (pc pc1 : Pc)
    (a : Action) (h : workerStep cfg fs sh pc a = some (sh1, pc1)) :
    sh1.done = sh.done + (if pc1.isStopped then 1 else 0) ∧ pc.isStopped = false ∧
    (sh.cancelled = true → sh1.cancelled = true) ∧
    ((pc = .loopTop ∧ pc1 = .stopped .idleTimeout ∧ sh1.chs = sh.chs ∧ sh1.cancelled = true) ∨
     (pc = .loopTop ∧ pc1 = .atSelect ∧ sh1.chs = sh.chs ∧ sh1.cancelled = sh.cancelled) ∨
     (pc = .atSelect ∧ pc1 = .stopped .cancelled ∧ sh1.chs = sh.chs ∧ sh.cancelled = true ∧
        sh1.cancelled = true) ∨
     (pc = .atSelect ∧ pc1 = .stopped .draining ∧ sh1.chs = sh.chs ∧
        sh1.cancelled = sh.cancelled) ∨
     (pc = .atSelect ∧ (∃ ip, pc1 = .scanning ip) ∧ sh1.chs = sh.chs ∧
        sh1.cancelled = sh.cancelled) ∨
     ((∃ ip, pc = .scanning ip) ∧ pc1 = .loopTop ∧ sh1.chs = sh.chs ∧
        sh1.cancelled = sh.cancelled) ∨
     ((∃ ip, pc = .scanning ip) ∧ (∃ r, pc1 = .locking r) ∧ sh1.chs = sh.chs ∧
        sh1.cancelled = sh.cancelled) ∨
     ((∃ r, pc = .locking r ∧ sh1.chs = sh.chs ++ [r]) ∧ pc1 = .quotaCheck ∧
        sh1.cancelled = sh.cancelled) ∨
     (pc = .quotaCheck ∧ pc1 = .stopped .quotaReached ∧ sh1.chs = sh.chs ∧
        cfg.best ≤ (sh.chs.length : Int) ∧ sh1.cancelled = true) ∨
     (pc = .quotaCheck ∧ pc1 = .loopTop ∧ sh1.chs = sh.chs ∧ sh1.cancelled = sh.cancelled ∧
        ¬ ((sh.chs.length : Int) ≥ cfg.best ∧ cfg.best > 0))) := by
  unfold workerStep at h
  split at h
  · split at h
    · simp only [Option.some.injEq, Prod.mk.injEq] at h
      obtain ⟨rfl, rfl⟩ := h
      simp [Pc.isStopped]
    · simp only [Option.some.injEq, Prod.mk.injEq] at h
      obtain ⟨rfl, rfl⟩ := h
      simp [Pc.isStopped]
  · split at h
    · simp only [Option.some.injEq, Prod.mk.injEq] at h
      obtain ⟨rfl, rfl⟩ := h
      simp_all [Pc.isStopped]
    · exact Option.noConfusion h
  · split at h
    · simp only [Option.some.injEq, Prod.mk.injEq] at h
      obtain ⟨rfl, rfl⟩ := h
      simp [Pc.isStopped]
    · simp only [Option.some.injEq, Prod.mk.injEq] at h
      obtain ⟨rfl, rfl⟩ := h
      simp [Pc.isStopped]
  · simp only [Option.some.injEq, Prod.mk.injEq] at h
    obtain ⟨rfl, rfl⟩ := h
    simp [Pc.isStopped]
  · split at h
    · simp only [Option.some.injEq, Prod.mk.injEq] at h
      obtain ⟨rfl, rfl⟩ := h
      simp [Pc.isStopped]
    · simp only at h
      split at h
      · simp only [Option.some.injEq, Prod.mk.injEq] at h
        obtain ⟨rfl, rfl⟩ := h
        simp [Pc.isStopped]
      · simp only [Option.some.injEq, Prod.mk.injEq] at h
        obtain ⟨rfl, rfl⟩ := h
        simp [Pc.isStopped]
  · simp only [Option.some.injEq, Prod.mk.injEq] at h
    obtain ⟨rfl, rfl⟩ := h
    simp [Pc.isStopped]
  · split at h
    · rename_i hq
      simp only [Option.some.injEq, Prod.mk.injEq] at h
      obtain ⟨rfl, rfl⟩ := h
      simp [Pc.isStopped, hq.1]
    · rename_i hq
      simp only [Option.some.injEq, Prod.mk.injEq] at h
      obtain ⟨rfl, rfl⟩ := h
      simp only [Pc.isStopped]
      simp only [ge_iff_le, gt_iff_lt] at hq
      simp [hq]
  · exact Option.noConfusion h


theorem countP_set (p : Pc → Bool) (l : List Pc) (i : Nat) (x y : Pc) (h : l[i]? = some x) :
    (l.set i y).countP p + (if p x then 1 else 0) = l.countP p + (if p y then 1 else 0) := by
  induction l generalizing i with
  | nil => simp at h
  | cons a l ih =>
    cases i with
    | zero =>
      simp only [List.getElem?_cons_zero, Option.some.injEq] at h
      subst h
      simp only [List.set_cons_zero, List.countP_cons]
      omega
    | succ i =>
      simp only [List.getElem?_cons_succ] at h
      have := ih i h
      simp only [List.set_cons_succ, List.countP_cons]
      omega

theorem step_inv (cfg : Flags) (fs : FileSystem) (e e1 : Engine) (w : Nat) (a : Action)
    (h : Engine.step cfg fs e w a = some e1) :
    ∃ pc pc1, e.workers[w]? = some pc ∧
      workerStep cfg fs e.shared pc a = some (e1.shared, pc1) ∧
      e1.workers = e.workers.set w pc1 := by
  unfold Engine.step at h
  split at h
  · exact Option.noConfusion h
  · rename_i pc hpc
    split at h
    · exact Option.noConfusion h
    · rename_i sh pc1 hstep
      simp only [Option.some.injEq] at h
      subst h
      exact ⟨pc, pc1, hpc, hstep, rfl⟩

theorem stopped_of_set_other (l : List Pc) (w i : Nat) (pc pc1 : Pc) (why : Exit)
    (hw : l[w]? = some pc) (hpc : pc.isStopped = false)
    (hi : l[i]? = some (.stopped why)) : (l.set w pc1)[i]? = some (.stopped why) := by
  have hne : w ≠ i := by
    rintro rfl
    rw [hw] at hi
    have := Option.some.inj hi
    subst this
    simp [Pc.isStopped] at hpc
  rw [List.getElem?_set_ne hne]
  exact hi

theorem getElem_set_cases (l : List Pc) (w i : Nat) (pc1 x : Pc)
    (hi : (l.set w pc1)[i]? = some x) : (w = i ∧ x = pc1) ∨ l[i]? = some x := by
  by_cases hwi : w = i
  · subst hwi
    left
    rw [List.getElem?_set_self'] at hi
    cases hl : l[w]? with
    | none => rw [hl] at hi; simp at hi
    | some y =>
      rw [hl] at hi
      simp at hi
      exact ⟨rfl, hi.symm⟩
  · right
    rwa [List.getElem?_set_ne hwi] at hi

theorem inv_init (cfg : Flags) (thread : Nat) (now : Int) (hosts : List Host)
    (hK : 0 < cfg.best) : Engine.Inv cfg thread (Engine.init thread now hosts) := by
  refine ⟨by simp [Engine.init], ?_, Or.inl (by simpa [Engine.init] using hK), ?_, ?_⟩
  · simp [Engine.init, List.countP_replicate, Pc.isStopped]
  · intro h
    simp [Engine.init] at h
  · intro i h
    simp only [Engine.init, List.getElem?_replicate] at h
    rcases h with h | h <;> · split at h <;> simp at h



/-- Every step of the engine keeps the invariant. -/
theorem inv_step (cfg : Flags) (fs : FileSystem) (thread : Nat) (e e1 : Engine) (w : Nat)
    (a : Action) (hK : 0 < cfg.best) (hinv : Engine.Inv cfg thread e)
    (h : Engine.step cfg fs e w a = some e1) : Engine.Inv cfg thread e1 := by
  obtain ⟨pc, pc1, hw, hstep, hws⟩ := step_inv cfg fs e e1 w a h
  obtain ⟨hdone, hns, hmono, hcases⟩ := workerStep_cases cfg fs _ _ _ _ _ hstep
  obtain ⟨hlen, hd, hub, hlow, hcan⟩ := hinv
  have hcS := countP_set Pc.isStopped e.workers w pc pc1 hw
  have hcA := countP_set Pc.active e.workers w pc pc1 hw
  have hle : e.workers.countP Pc.active ≤ e.workers.length := List.countP_le_length _
  have hwlt : w < e.workers.length := by
    by_contra hcon
    rw [List.getElem?_eq_none (Nat.le_of_not_lt hcon)] at hw
    exact Option.noConfusion hw
  have hlenmono : e.shared.chs.length ≤ e1.shared.chs.length := by
    rcases hcases with c | c | c | c | c | c | c | c | c | c
    all_goals first
      | (obtain ⟨⟨r, _, hr⟩, _⟩ := c; rw [hr]; simp)
      | (have hc : e1.shared.chs = e.shared.chs := c.2.2.1
         rw [hc])
  have hnew : e1.shared.cancelled = true →
      e.shared.cancelled = true ∨ pc1 = .stopped .idleTimeout ∨
        cfg.best ≤ (e.shared.chs.length : Int) := by
    intro hc
    rcases hcases with c | c | c | c | c | c | c | c | c | c
    · exact Or.inr (Or.inl c.2.1)
    · left; rw [← c.2.2.2]; exact hc
    · exact Or.inl c.2.2.2.1
    · left; rw [← c.2.2.2]; exact hc
    · left; rw [← c.2.2.2]; exact hc
    · left; rw [← c.2.2.2]; exact hc
    · left; rw [← c.2.2.2]; exact hc
    · left; rw [← c.2.2]; exact hc
    · exact Or.inr (Or.inr c.2.2.2.1)
    · left; rw [← c.2.2.2.1]; exact hc
  have hexit : pc1 = .stopped .cancelled ∨ pc1 = .stopped .quotaReached →
      e1.shared.cancelled = true := by
    intro hp
    rcases hcases with c | c | c | c | c | c | c | c | c | c
    · rcases hp with hp | hp <;> · rw [c.2.1] at hp; simp at hp
    · rcases hp with hp | hp <;> · rw [c.2.1] at hp; simp at hp
    · exact c.2.2.2.2
    · rcases hp with hp | hp <;> · rw [c.2.1] at hp; simp at hp
    · obtain ⟨ip, hip⟩ := c.2.1
      rcases hp with hp | hp <;> · rw [hip] at hp; simp at hp
    · rcases hp with hp | hp <;> · rw [c.2.1] at hp; simp at hp
    · obtain ⟨r, hr⟩ := c.2.1
      rcases hp with hp | hp <;> · rw [hr] at hp; simp at hp
    · rcases hp with hp | hp <;> · rw [c.2.1] at hp; simp at hp
    · exact c.2.2.2.2
    · rcases hp with hp | hp <;> · rw [c.2.1] at hp; simp at hp
  refine ⟨?_, ?_, ?_, ?_, ?_⟩
  · rw [hws, List.length_set]; exact hlen
  · rw [hws, hdone, hd]
    simp only [hns, Bool.false_eq_true, if_false, Nat.add_zero] at hcS
    omega
  · rw [hws]
    rcases hcases with c | c | c | c | c | c | c | c | c | c
    · obtain ⟨rfl, rfl, hc, _⟩ := c
      simp only [Pc.active, if_true, Bool.false_eq_true, if_false] at hcA
      rw [hc]; omega
    · obtain ⟨rfl, rfl, hc, _⟩ := c
      simp only [Pc.active, if_true] at hcA
      rw [hc]; omega
    · obtain ⟨rfl, rfl, hc, _⟩ := c
      simp only [Pc.active, if_true, Bool.false_eq_true, if_false] at hcA
      rw [hc]; omega
    · obtain ⟨rfl, rfl, hc, _⟩ := c
      simp only [Pc.active, if_true, Bool.false_eq_true, if_false] at hcA
      rw [hc]; omega
    · obtain ⟨rfl, ⟨ip, rfl⟩, hc, _⟩ := c
      simp only [Pc.active, if_true] at hcA
      rw [hc]; omega
    · obtain ⟨⟨ip, rfl⟩, rfl, hc, _⟩ := c
      simp only [Pc.active, if_true] at hcA
      rw [hc]; omega
    · obtain ⟨⟨ip, rfl⟩, ⟨r, rfl⟩, hc, _⟩ := c
      simp only [Pc.active, if_true] at hcA
      rw [hc]; omega
    · obtain ⟨⟨r, rfl, hc⟩, rfl, _⟩ := c
      simp only [Pc.active, if_true, Bool.false_eq_true, if_false] at hcA
      rw [hc]
      simp only [List.length_append, List.length_singleton]
      push_cast
      omega
    · obtain ⟨rfl, rfl, hc, _⟩ := c
      simp only [Pc.active, Bool.false_eq_true, if_false] at hcA
      rw [hc]; omega
    · obtain ⟨rfl, rfl, hc, _, hq⟩ := c
      left
      rw [hc]
      by_contra hcon
      exact hq ⟨by omega, hK⟩
  · intro hc1
    have hpres : (cfg.best ≤ (e.shared.chs.length : Int) ∨
        ∃ i : Nat, e.workers[i]? = some (Pc.stopped Exit.idleTimeout)) →
        (cfg.best ≤ (e1.shared.chs.length : Int) ∨
        ∃ i : Nat, e1.workers[i]? = some (Pc.stopped Exit.idleTimeout)) := by
      rintro (hp | ⟨i, hi⟩)
      · left; omega
      · right
        exact ⟨i, by rw [hws]; exact stopped_of_set_other _ _ _ _ _ _ hw hns hi⟩
    rcases hnew hc1 with hold | hidle | hq
    · exact hpres (hlow hold)
    · right
      refine ⟨w, ?_⟩
      rw [hws, List.getElem?_set_self hwlt, hidle]
    · exact hpres (Or.inl hq)
  · intro i hi
    rw [hws] at hi
    rcases hi with hi | hi
    · rcases getElem_set_cases _ _ _ _ _ hi with ⟨_, hx⟩ | hold
      · exact hexit (Or.inl hx.symm)
      · exact hmono (hcan i (Or.inl hold))
    · rcases getElem_set_cases _ _ _ _ _ hi with ⟨_, hx⟩ | hold
      · exact hexit (Or.inr hx.symm)
      · exact hmono (hcan i (Or.inr hold))

/-- Every state of a run from the initial state satisfies the invariant. -/
theorem inv_run (cfg : Flags) (fs : FileSystem) (thread : Nat) (hK : 0 < cfg.best)
    (sched : List (Nat × Action)) (e e1 : Engine) (hinv : Engine.Inv cfg thread e)
    (h : Engine.run cfg fs e sched = some e1) : Engine.Inv cfg thread e1 := by
  induction sched generalizing e with
  | nil =>
    simp only [Engine.run, Option.some.injEq] at h
    subst h; exact hinv
  | cons x rest ih =>
    obtain ⟨w, a⟩ := x
    simp only [Engine.run] at h
    split at h
    · exact Option.noConfusion h
    · rename_i e2 hstep
      exact ih e2 (inv_step cfg fs thread e e2 w a hK hinv hstep) h



theorem sum_map_set (f : Pc → Nat) (l : List Pc) (i : Nat) (x y : Pc) (h : l[i]? = some x) :
    ((l.set i y).map f).sum + f x = (l.map f).sum + f y := by
  induction l generalizing i with
  | nil => simp at h
  | cons a l ih =>
    cases i with
    | zero =>
      simp only [List.getElem?_cons_zero, Option.some.injEq] at h
      subst h
      simp only [List.set_cons_zero, List.map_cons, List.sum_cons]
      omega
    | succ i =>
      simp only [List.getElem?_cons_succ] at h
      have := ih i h
      simp only [List.set_cons_succ, List.map_cons, List.sum_cons]
      omega

/-- A worker goes from `ScanTLS` back to the top of its loop only when the probe failed. -/
theorem failed_probe_of_loopTop (cfg : Flags) (fs : FileSystem) (sh sh1 : Shared) (ip : Host)
    (a : Action) (h : workerStep cfg fs sh (.scanning ip) a = some (sh1, .loopTop)) :
    a.isFailedProbe = true := by
  cases a with
  | scanned r =>
    cases r with
    | none => rfl
    | some r =>
      simp only [workerStep] at h
      split at h
      · simp at h
      · split at h <;> simp at h
  | idleCheck now => simp [workerStep] at h
  | ctxDone => simp [workerStep] at h
  | receive => simp [workerStep] at h
  | append now => simp [workerStep] at h
  | checkQuota => simp [workerStep] at h

/-- Every step other than a failed probe lowers the potential. -/
theorem potential_step (cfg : Flags) (fs : FileSystem) (e e1 : Engine) (w : Nat) (a : Action)
    (hK : 0 < cfg.best) (ha : a.isFailedProbe = false)
    (h : Engine.step cfg fs e w a = some e1) :
    Engine.potential cfg e1 + 1 ≤ Engine.potential cfg e := by
  obtain ⟨pc, pc1, hw, hstep, hws⟩ := step_inv cfg fs e e1 w a h
  obtain ⟨_, _, _, hcases⟩ := workerStep_cases cfg fs _ _ _ _ _ hstep
  have hS := sum_map_set Pc.remaining e.workers w pc pc1 hw
  have hQ := countP_set Pc.atQuota e.workers w pc pc1 hw
  unfold Engine.potential
  rw [hws]
  rcases hcases with c | c | c | c | c | c | c | c | c | c
  · obtain ⟨rfl, rfl, hc, _⟩ := c
    simp only [Pc.remaining, Pc.atQuota, Bool.false_eq_true, if_false] at hS hQ
    rw [hc]; omega
  · obtain ⟨rfl, rfl, hc, _⟩ := c
    simp only [Pc.remaining, Pc.atQuota, Bool.false_eq_true, if_false] at hS hQ
    rw [hc]; omega
  · obtain ⟨rfl, rfl, hc, _⟩ := c
    simp only [Pc.remaining, Pc.atQuota, Bool.false_eq_true, if_false] at hS hQ
    rw [hc]; omega
  · obtain ⟨rfl, rfl, hc, _⟩ := c
    simp only [Pc.remaining, Pc.atQuota, Bool.false_eq_true, if_false] at hS hQ
    rw [hc]; omega
  · obtain ⟨rfl, ⟨ip, rfl⟩, hc, _⟩ := c
    simp only [Pc.remaining, Pc.atQuota, Bool.false_eq_true, if_false] at hS hQ
    rw [hc]; omega
  · obtain ⟨⟨ip, rfl⟩, rfl, _⟩ := c
    rw [failed_probe_of_loopTop cfg fs _ _ ip a hstep] at ha
    exact Bool.noConfusion ha
  · obtain ⟨⟨ip, rfl⟩, ⟨r, rfl⟩, hc, _⟩ := c
    simp only [Pc.remaining, Pc.atQuota, Bool.false_eq_true, if_false] at hS hQ
    rw [hc]; omega
  · obtain ⟨⟨r, rfl, hc⟩, rfl, _⟩ := c
    simp only [Pc.remaining, Pc.atQuota, Bool.false_eq_true, if_false, if_true] at hS hQ
    rw [hc]
    simp only [List.length_append, List.length_singleton, Nat.cast_add, Nat.cast_one]
    omega
  · obtain ⟨rfl, rfl, hc, hq, _⟩ := c
    simp only [Pc.remaining, Pc.atQuota, Bool.false_eq_true, if_false, if_true] at hS hQ
    rw [hc]; omega
  · obtain ⟨rfl, rfl, hc, _, hq⟩ := c
    simp only [Pc.remaining, Pc.atQuota, Bool.false_eq_true, if_false, if_true] at hS hQ
    have hlt : (e.shared.chs.length : Int) < cfg.best := by
      by_contra hcon
      exact hq ⟨by omega, hK⟩
    rw [hc]; omega

/-- A run without failed probes is no longer than the potential of its first state. -/
theorem potential_run (cfg : Flags) (fs : FileSystem) (hK : 0 < cfg.best)
    (sched : List (Nat × Action)) (e e1 : Engine)
    (hs : ∀ x ∈ sched, x.2.isFailedProbe = false)
    (h : Engine.run cfg fs e sched = some e1) :
    Engine.potential cfg e1 + (sched.length : Int) ≤ Engine.potential cfg e := by
  induction sched generalizing e with
  | nil =>
    simp only [Engine.run, Option.some.injEq] at h
    subst h; simp
  | cons x rest ih =>
    obtain ⟨w, a⟩ := x
    simp only [Engine.run] at h
    split at h
    · exact Option.noConfusion h
    · rename_i e2 hstep
      have h1 := potential_step cfg fs e e2 w a hK (hs (w, a) (List.mem_cons_self _ _)) hstep
      have h2 := ih e2 (fun x hx => hs x (List.mem_cons_of_mem _ hx)) h
      simp only [List.length_cons]
      push_cast
      omega

theorem potential_nonneg (cfg : Flags) (e : Engine) : 0 ≤ Engine.potential cfg e := by
  unfold Engine.potential
  split <;> omega

theorem potential_init (cfg : Flags) (thread : Nat) (now : Int) (hosts : List Host)
    (hK : 0 < cfg.best) :
    Engine.potential cfg (Engine.init thread now hosts) = 5 * (cfg.best + thread - 1) := by
  have hsum : ∀ n : Nat, ((List.replicate n Pc.loopTop).map Pc.remaining).sum = 5 * n := by
    intro n
    induction n with
    | zero => simp
    | succ n ih => simp only [List.replicate_succ, List.map_cons, List.sum_cons, ih,
        Pc.remaining]; omega
  unfold Engine.potential Engine.init
  simp only [hsum, List.length_nil, List.countP_replicate, Pc.atQuota]
  push_cast
  simp only [hK, if_true]
  simp
  omega

/-- A worker that has not stopped can take a step that is not a failed probe. -/
theorem worker_progress (cfg : Flags) (fs : FileSystem) (sh : Shared) (pc : Pc)
    (hpc : pc.isStopped = false) :
    ∃ a sh1 pc1, a.isFailedProbe = false ∧ workerStep cfg fs sh pc a = some (sh1, pc1) := by
  cases pc with
  | loopTop =>
    refine ⟨.idleCheck sh.lastChecked, ?_⟩
    simp only [workerStep]
    split
    · exact ⟨_, _, rfl, rfl⟩
    · exact ⟨_, _, rfl, rfl⟩
  | atSelect =>
    refine ⟨.receive, ?_⟩
    simp only [workerStep]
    split
    · exact ⟨_, _, rfl, rfl⟩
    · exact ⟨_, _, rfl, rfl⟩
  | scanning ip =>
    refine ⟨.scanned (some {}), ?_⟩
    exact ⟨_, _, rfl, rfl⟩
  | locking r => exact ⟨.append sh.lastChecked, _, _, rfl, rfl⟩
  | quotaCheck =>
    refine ⟨.checkQuota, ?_⟩
    simp only [workerStep]
    split
    · exact ⟨_, _, rfl, rfl⟩
    · exact ⟨_, _, rfl, rfl⟩
  | stopped why => simp [Pc.isStopped] at hpc

/-- While a worker has not joined, the engine can take a step that is not a failed probe. -/
theorem engine_progress (cfg : Flags) (fs : FileSystem) (thread : Nat) (e : Engine)
    (hinv : Engine.Inv cfg thread e) (hj : ¬ e.joined thread) :
    ∃ w a e1, a.isFailedProbe = false ∧ Engine.step cfg fs e w a = some e1 := by
  obtain ⟨hlen, hd, _⟩ := hinv
  unfold Engine.joined at hj
  have hne : e.workers.countP Pc.isStopped ≠ e.workers.length := by omega
  have hex : ∃ pc ∈ e.workers, ¬ (Pc.isStopped pc = true) := by
    by_contra hcon
    push_neg at hcon
    exact hne (List.countP_eq_length.2 hcon)
  obtain ⟨pc, hmem, hpc⟩ := hex
  obtain ⟨w, hw⟩ := List.mem_iff_getElem?.1 hmem
  obtain ⟨a, sh1, pc1, ha, hstep⟩ :=
    worker_progress cfg fs e.shared pc (by simpa using hpc)
  exact ⟨w, a, { shared := sh1, workers := e.workers.set w pc1 }, ha, by
    simp [Engine.step, hw, hstep]⟩


theorem maxWaitDuration_of_range (maxWait : Int) (h1 : -9223372036 ≤ maxWait)
    (h2 : maxWait ≤ 9223372036) : maxWaitDuration maxWait = maxWait * second := by
  unfold maxWaitDuration second
  have hw : wrapInt64 maxWait = maxWait :=
    wrapInt64_of_range maxWait (by norm_num; omega) (by norm_num; omega)
  rw [hw]
  exact wrapInt64_of_range _ (by norm_num; omega) (by norm_num; omega)

/-- The comparison of line 161 for an idle bound whose duration is in the `int64` range: the
saturation of `time.Since` does not change the outcome. -/
theorem idle_test_of_range (now lastChecked maxWait : Int) (h1 : -9223372036 ≤ maxWait)
    (h2 : maxWait ≤ 9223372036) :
    timeSince now lastChecked > maxWaitDuration maxWait ↔
      now - lastChecked > maxWait * second := by
  rw [maxWaitDuration_of_range maxWait h1 h2]
  unfold timeSince saturateInt64 second
  norm_num
  split
  · omega
  · split <;> omega

/-- C5, as the claim states it, fails: two workers, the quota `best = 1`, hosts that keep
arriving and probes that succeed; both workers are inside `ScanTLS` when the first result
reaches the quota, and when both have joined the success list holds two results. -/
theorem quota_overshoot_two_workers :
    (Engine.run exampleFlags noFiles (Engine.init 2 0 exampleHosts) overshootSchedule).map
      (fun e => (e.shared.chs.length, e.shared.done, e.workers)) =
        some (2, 2, [.stopped .quotaReached, .stopped .quotaReached]) ∧
    exampleFlags.best = 1 := by
  decide

/-- C5, amended. For a quota `best = K > 0` and `thread >= 1` workers, in every state of every
run of the engine the success list holds at most `K + thread - 1` results; when all workers
have joined and none of them left by the idle timeout or by the closed channel, it holds at
least `K` results, and exactly `K` when there is one worker; the worker whose quota check sees
`K` results or more stops as QuotaReached and sets the token. The engine stops: a run in which
no probe fails has at most `5 * (K + thread - 1)` steps, however many hosts arrive, and as long
as a worker has not joined some worker can take a step. -/
theorem quota_bounds (cfg : Flags) (fs : FileSystem) (thread : Nat) (now : Int)
    (hosts : List Host) (sched : List (Nat × Action)) (e : Engine)
    (hK : 0 < cfg.best) (hthread : 1 ≤ thread)
    (hrun : Engine.run cfg fs (Engine.init thread now hosts) sched = some e) :
    (e.shared.chs.length : Int) ≤ cfg.best + thread - 1 ∧
    (e.joined thread →
      (∀ pc ∈ e.workers, pc ≠ .stopped .idleTimeout ∧ pc ≠ .stopped .draining) →
      cfg.best ≤ (e.shared.chs.length : Int)) ∧
    (thread = 1 → e.joined thread →
      (∀ pc ∈ e.workers, pc ≠ .stopped .idleTimeout ∧ pc ≠ .stopped .draining) →
      (e.shared.chs.length : Int) = cfg.best) ∧
    (∀ sh : Shared, cfg.best ≤ (sh.chs.length : Int) →
      workerStep cfg fs sh .quotaCheck .checkQuota =
        some ({ sh with done := sh.done + 1, cancelled := true }, .stopped .quotaReached)) ∧
    ((∀ x ∈ sched, x.2.isFailedProbe = false) →
      (sched.length : Int) ≤ 5 * (cfg.best + thread - 1)) ∧
    (¬ e.joined thread →
      ∃ w a e1, a.isFailedProbe = false ∧ Engine.step cfg fs e w a = some e1) := by
  have hinv := inv_run cfg fs thread hK sched _ e (inv_init cfg thread now hosts hK) hrun
  obtain ⟨hlen, hd, hub, hlow, hcan⟩ := hinv
  have hupper : (e.shared.chs.length : Int) ≤ cfg.best + thread - 1 := by
    rcases hub with h | h <;> omega
  have hlower : e.joined thread →
      (∀ pc ∈ e.workers, pc ≠ .stopped .idleTimeout ∧ pc ≠ .stopped .draining) →
      cfg.best ≤ (e.shared.chs.length : Int) := by
    intro hj hex
    unfold Engine.joined at hj
    have hall : e.workers.countP Pc.isStopped = e.workers.length := by omega
    rw [List.countP_eq_length] at hall
    have h0 : 0 < e.workers.length := by omega
    have hmem : e.workers[0] ∈ e.workers := List.getElem_mem h0
    have hst := hall _ hmem
    have hne := hex _ hmem
    have hget : e.workers[0]? = some e.workers[0] := List.getElem?_eq_getElem h0
    have hc : e.shared.cancelled = true := by
      apply hcan 0
      rw [hget]
      cases hpc : e.workers[0] with
      | stopped why =>
        rw [hpc] at hne
        cases why with
        | idleTimeout => exact absurd rfl hne.1
        | draining => exact absurd rfl hne.2
        | cancelled => exact Or.inl rfl
        | quotaReached => exact Or.inr rfl
      | loopTop => rw [hpc] at hst; simp [Pc.isStopped] at hst
      | atSelect => rw [hpc] at hst; simp [Pc.isStopped] at hst
      | scanning ip => rw [hpc] at hst; simp [Pc.isStopped] at hst
      | locking r => rw [hpc] at hst; simp [Pc.isStopped] at hst
      | quotaCheck => rw [hpc] at hst; simp [Pc.isStopped] at hst
    rcases hlow hc with h | ⟨i, hi⟩
    · exact h
    · exact absurd rfl (hex _ (List.getElem?_mem hi)).1
  refine ⟨hupper, hlower, ?_, ?_, ?_, ?_⟩
  · intro h1 hj hex
    have := hlower hj hex
    subst h1
    push_cast at hupper
    omega
  · intro sh hsh
    simp [workerStep, hsh, hK]
  · intro hs
    have h1 := potential_run cfg fs hK sched _ e hs hrun
    have h2 := potential_nonneg cfg e
    rw [potential_init cfg thread now hosts hK] at h1
    omega
  · exact engine_progress cfg fs thread e ⟨hlen, hd, hub, hlow, hcan⟩

theorem quota_bounds_witness :
    ((0 : Int) < exampleFlags.best ∧ 1 ≤ 1 ∧
      Engine.run exampleFlags noFiles (Engine.init 1 0 exampleHosts) singleSchedule =
        some singleRunResult) ∧
    (singleRunResult.shared.chs.length : Int) ≤ exampleFlags.best + (1 : Nat) - 1 ∧
    (singleRunResult.shared.chs.length : Int) = exampleFlags.best :=
  ⟨⟨by decide, by decide, rfl⟩,
   (quota_bounds exampleFlags noFiles 1 0 exampleHosts singleSchedule singleRunResult
     (by decide) (by decide) rfl).1,
   (quota_bounds exampleFlags noFiles 1 0 exampleHosts singleSchedule singleRunResult
     (by decide) (by decide) rfl).2.2.1 rfl (rfl : singleRunResult.shared.done = 1)
     (by decide)⟩

/-- C6, as the claim states it, fails: the second worker reaches the quota and sets the token;
the first worker then starts an iteration, its `select` receives the host that is ready, the
probe succeeds and the result is appended: one result before the token is set (after five
steps), two results at the end. -/
theorem append_after_cancel :
    (Engine.run exampleFlags noFiles (Engine.init 2 0 exampleHosts)
        (lateReceiveSchedule.take 5)).map
      (fun e => (e.shared.cancelled, e.shared.chs.length, e.workers)) =
        some (true, 1, [.loopTop, .stopped .quotaReached]) ∧
    (Engine.run exampleFlags noFiles (Engine.init 2 0 exampleHosts) lateReceiveSchedule).map
      (fun e => (e.shared.cancelled, e.shared.chs.length)) = some (true, 2) := by
  decide

/-- C6, amended. Once the token is set it stays set. A worker iteration that starts after
that leaves the idle check either stopped as IdleTimeout or at the `select` with the shared
state as it was; at the `select` the case of `ctx.Done()` is enabled and stops the worker as
Cancelled, with the success list and the host channel as they were; a closed channel stops it
as Draining. The `select` has no other case than these and the receive: when a host is ready
the worker may receive it, and is then inside `ScanTLS`. -/
theorem cancelled_iteration (cfg : Flags) (fs : FileSystem) (sh : Shared)
    (hc : sh.cancelled = true) :
    (∀ pc a sh1 pc1, workerStep cfg fs sh pc a = some (sh1, pc1) → sh1.cancelled = true) ∧
    (∀ now,
      workerStep cfg fs sh .loopTop (.idleCheck now) =
          some ({ sh with done := sh.done + 1, cancelled := true }, .stopped .idleTimeout) ∨
        workerStep cfg fs sh .loopTop (.idleCheck now) = some (sh, .atSelect)) ∧
    workerStep cfg fs sh .atSelect .ctxDone =
      some ({ sh with done := sh.done + 1 }, .stopped .cancelled) ∧
    (sh.hostChan = [] →
      workerStep cfg fs sh .atSelect .receive =
        some ({ sh with done := sh.done + 1 }, .stopped .draining)) ∧
    (∀ ip rest, sh.hostChan = ip :: rest →
      workerStep cfg fs sh .atSelect .receive =
        some ({ sh with hostChan := rest }, .scanning ip)) ∧
    (∀ a sh1 pc1, workerStep cfg fs sh .atSelect a = some (sh1, pc1) →
      sh1.chs = sh.chs ∧
        (pc1 = .stopped .cancelled ∨ pc1 = .stopped .draining ∨ ∃ ip, pc1 = .scanning ip)) := by
  refine ⟨?_, ?_, ?_, ?_, ?_, ?_⟩
  · intro pc a sh1 pc1 h
    exact (workerStep_cases cfg fs sh sh1 pc pc1 a h).2.2.1 hc
  · intro now
    simp only [workerStep]
    split
    · exact Or.inl rfl
    · exact Or.inr rfl
  · simp [workerStep, hc]
  · intro h
    simp [workerStep, h]
  · intro ip rest h
    simp [workerStep, h]
  · intro a sh1 pc1 h
    have hcases := (workerStep_cases cfg fs sh sh1 .atSelect pc1 a h).2.2.2
    rcases hcases with c | c | c | c | c | c | c | c | c | c
    · exact absurd c.1 (by simp)
    · exact absurd c.1 (by simp)
    · exact ⟨c.2.2.1, Or.inl c.2.1⟩
    · exact ⟨c.2.2.1, Or.inr (Or.inl c.2.1)⟩
    · exact ⟨c.2.2.1, Or.inr (Or.inr c.2.1)⟩
    · obtain ⟨⟨ip, hip⟩, _⟩ := c
      exact absurd hip (by simp)
    · obtain ⟨⟨ip, hip⟩, _⟩ := c
      exact absurd hip (by simp)
    · obtain ⟨⟨r, hr, _⟩, _⟩ := c
      exact absurd hr (by simp)
    · exact absurd c.1 (by simp)
    · exact absurd c.1 (by simp)

theorem cancelled_iteration_witness :
    cancelledShared.cancelled = true ∧
    workerStep exampleFlags noFiles cancelledShared .atSelect .ctxDone =
      some ({ cancelledShared with done := cancelledShared.done + 1 }, .stopped .cancelled) :=
  ⟨rfl, (cancelled_iteration exampleFlags noFiles cancelledShared rfl).2.2.1⟩

/-- C7, as the claim states it, fails: with the idle bound `maxWait = 9223372037` the product
`time.Duration(maxWait) * time.Second` wraps around to a negative duration, and the idle check
stops the worker although no time has passed since the last successful scan. -/
theorem idle_check_overflow :
    (0 : Int) - 0 ≤ 9223372037 * second ∧
    (workerStep { best := 0, maxWait := 9223372037, ignoreDomains := "" } noFiles
        (Engine.init 1 0 exampleHosts).shared .loopTop (.idleCheck 0)).map (fun r => r.2) =
      some (.stopped .idleTimeout) := by
  decide

/-- C7, amended. For an idle bound `maxWait` of at most 9223372036 seconds in absolute value
(so that its duration in nanoseconds is an `int64`): when `now - lastChecked` is strictly more
than `maxWait` seconds the worker sets the token and stops as IdleTimeout, the success list and
the host channel are as they were, also when hosts remain; when `now - lastChecked` is at most
`maxWait` seconds the worker goes on to the `select` and the shared state is as it was. -/
theorem idle_check (cfg : Flags) (fs : FileSystem) (sh : Shared) (now : Int)
    (h1 : -9223372036 ≤ cfg.maxWait) (h2 : cfg.maxWait ≤ 9223372036) :
    (now - sh.lastChecked > cfg.maxWait * second →
      workerStep cfg fs sh .loopTop (.idleCheck now) =
        some ({ sh with done := sh.done + 1, cancelled := true }, .stopped .idleTimeout) ∧
      ({ sh with done := sh.done + 1, cancelled := true } : Shared).chs = sh.chs ∧
      ({ sh with done := sh.done + 1, cancelled := true } : Shared).hostChan = sh.hostChan) ∧
    (now - sh.lastChecked ≤ cfg.maxWait * second →
      workerStep cfg fs sh .loopTop (.idleCheck now) = some (sh, .atSelect)) := by
  have hiff := idle_test_of_range now sh.lastChecked cfg.maxWait h1 h2
  constructor
  · intro h
    have := hiff.2 h
    simp [workerStep, this]
  · intro h
    have : ¬ timeSince now sh.lastChecked > maxWaitDuration cfg.maxWait := by
      intro hcon
      have := hiff.1 hcon
      omega
    simp only [workerStep, this, if_false]

theorem idle_check_witness :
    ((-9223372036 : Int) ≤ exampleFlags.maxWait ∧ exampleFlags.maxWait ≤ 9223372036 ∧
      (16000000000 : Int) - cancelledShared.lastChecked > exampleFlags.maxWait * second ∧
      (15000000001 : Int) - cancelledShared.lastChecked ≤ exampleFlags.maxWait * second) ∧
    workerStep exampleFlags noFiles cancelledShared .loopTop (.idleCheck 16000000000) =
      some ({ cancelledShared with done := cancelledShared.done + 1, cancelled := true },
        .stopped .idleTimeout) ∧
    workerStep exampleFlags noFiles cancelledShared .loopTop (.idleCheck 15000000001) =
      some (cancelledShared, .atSelect) :=
  ⟨⟨by decide, by decide, by decide, by decide⟩,
   ((idle_check exampleFlags noFiles cancelledShared 16000000000 (by decide) (by decide)).1
     (by decide)).1,
   (idle_check exampleFlags noFiles cancelledShared 15000000001 (by decide) (by decide)).2
     (by decide)⟩

/-- C8. For every host a worker has received, the effect on the shared scan state is
determined by the result of the probe. When `ScanTLS` returns nil the shared state is as it
was and the worker is back at the top of its loop. When it returns a result, whatever its
domain and whatever `isIgnored` says of it, the success list, the timestamp, the token and the
host channel are as they were until the worker takes the lock; the only step the worker can
then take appends that result once and sets the timestamp; after it the worker is at the quota
check, whose step changes neither the list nor the timestamp and leads to the top of the loop
or to the exit, so the result is not appended again. -/
theorem probe_result_effect (cfg : Flags) (fs : FileSystem) (sh : Shared) (ip : Host) :
    workerStep cfg fs sh (.scanning ip) (.scanned none) = some (sh, .loopTop) ∧
    ∀ r : ScanResponse,
      (∃ sh1, workerStep cfg fs sh (.scanning ip) (.scanned (some r)) = some (sh1, .locking r) ∧
        sh1.chs = sh.chs ∧ sh1.lastChecked = sh.lastChecked ∧
        sh1.cancelled = sh.cancelled ∧ sh1.hostChan = sh.hostChan ∧ sh1.done = sh.done) ∧
      (∀ sh2 now, workerStep cfg fs sh2 (.locking r) (.append now) =
        some ({ sh2 with chs := sh2.chs ++ [r], lastChecked := now }, .quotaCheck)) ∧
      (∀ sh2 a sh3 pc, workerStep cfg fs sh2 (.locking r) a = some (sh3, pc) →
        sh3.chs = sh2.chs ++ [r] ∧ pc = .quotaCheck) ∧
      (∀ sh3 a sh4 pc, workerStep cfg fs sh3 .quotaCheck a = some (sh4, pc) →
        sh4.chs = sh3.chs ∧ sh4.lastChecked = sh3.lastChecked ∧
          (pc = .loopTop ∨ pc = .stopped .quotaReached)) := by
  refine ⟨rfl, fun r => ⟨?_, fun _ _ => rfl, ?_, ?_⟩⟩
  · simp only [workerStep]
    split
    · exact ⟨_, rfl, rfl, rfl, rfl, rfl, rfl⟩
    · split
      · exact ⟨_, rfl, rfl, rfl, rfl, rfl, rfl⟩
      · exact ⟨_, rfl, rfl, rfl, rfl, rfl, rfl⟩
  · intro sh2 a sh3 pc h
    cases a <;> simp only [workerStep, Option.some.injEq, Prod.mk.injEq] at h
    all_goals first
      | exact Option.noConfusion h
      | (obtain ⟨rfl, rfl⟩ := h; exact ⟨rfl, rfl⟩)
  · intro sh3 a sh4 pc h
    cases a <;> simp only [workerStep] at h
    all_goals first
      | exact Option.noConfusion h
      | (split at h
         · simp only [Option.some.injEq, Prod.mk.injEq] at h
           obtain ⟨rfl, rfl⟩ := h
           exact ⟨rfl, rfl, Or.inr rfl⟩
         · simp only [Option.some.injEq, Prod.mk.injEq] at h
           obtain ⟨rfl, rfl⟩ := h
           exact ⟨rfl, rfl, Or.inl rfl⟩)


end VadimScanner
